import Mathlib

/-!
Verification development for the masterchain state structures of
venom-blockchain/block (`src/master.rs`): decaying counters, the key-block
index over `OldMcBlocksInfo`, the shard topology (`ShardHashes`) and the
`ShardDescr` wire format.

The cell codec, the generic `BinTree`/`HashmapAugE` containers and the
`ShardIdent` arithmetic live in other files of the repository; where a claim
depends on them they are modelled from the specification (each such
definition carries a doc comment saying so).
-/

set_option maxHeartbeats 1000000
set_option maxRecDepth 4000

namespace VenomBlock

/-! ### Decaying counters (master.rs 888-1005) -/

/-- Model of `umulnexps32` (master.rs 888-893).  The source computes
`(x as f64 * (k as f64 / -65536f64).exp() + 0.5f64) as u64` with `f64`
arithmetic; following the source's own comments at its call sites
("more precise version of llround(cnt * exp(-dt / half_life)); rounding error
has absolute value < 1") we model the exact real-number computation
`floor(x * exp(-k / 2^16) + 1/2)`. -/
noncomputable def umulnexps32 (x k : ℕ) : ℕ :=
  ⌊(x : ℝ) * Real.exp (-(k : ℝ) / 65536) + 1/2⌋₊

/-- `counters#_ last_updated:uint32 total:uint64 cnt2048:uint64 cnt65536:uint64`
(master.rs 895-902); machine integers are carried as `ℕ` with explicit bounds
where they matter. -/
structure Counters where
  last_updated : ℕ
  total : ℕ
  cnt2048 : ℕ
  cnt65536 : ℕ
deriving DecidableEq

/-- `Counters::is_valid` (master.rs 914-923). -/
def Counters.is_valid (c : Counters) : Bool :=
  if c.total = 0 then
    decide (c.cnt2048 ||| c.cnt65536 = 0)
  else
    decide (c.last_updated ≠ 0)

/-- `Counters::increase_by` (master.rs 941-972).  `count` is a `u64`, `now` a
`u32`; `count << 32` wraps modulo `2^64`, `!x` is `2^64 - 1 - x`,
`checked_sub(..).unwrap_or_default()` is truncated subtraction, and
`dt << 5` wraps modulo `2^32`.  Returns the `bool` result together with the
state after the call (`self` is left unchanged on failure). -/
noncomputable def Counters.increase_by (c : Counters) (count now : ℕ) : Bool × Counters :=
  if c.is_valid = false then (false, c)
  else if c.total = 0 then
    (true, ⟨now, count, count * 2^32 % 2^64, count * 2^32 % 2^64⟩)
  else if 2^64 - 1 - c.total < count ∨ 2^64 - 1 - count * 2^32 % 2^64 < c.cnt2048 ∨
      2^64 - 1 - count * 2^32 % 2^64 < c.cnt65536 then
    (false, c)
  else
    (true, ⟨now, c.total + count,
      (if now - c.last_updated ≠ 0 then
        (if 48 * 2048 ≤ now - c.last_updated then 0
         else umulnexps32 c.cnt2048 ((now - c.last_updated) * 32 % 2^32))
       else c.cnt2048) + count * 2^32 % 2^64,
      (if now - c.last_updated ≠ 0 then umulnexps32 c.cnt65536 (now - c.last_updated)
       else c.cnt65536) + count * 2^32 % 2^64⟩)

theorem umulnexps32_le (x k : ℕ) : umulnexps32 x k ≤ x := by
  unfold umulnexps32
  have hexp : Real.exp (-(k : ℝ) / 65536) ≤ 1 := by
    rw [Real.exp_le_one_iff]
    have : (0:ℝ) ≤ (k : ℝ) / 65536 := by positivity
    linarith
  have hmul : (x : ℝ) * Real.exp (-(k : ℝ) / 65536) ≤ (x : ℝ) :=
    mul_le_of_le_one_right (by positivity) hexp
  have hlt : (x : ℝ) * Real.exp (-(k : ℝ) / 65536) + 1/2 < (x : ℝ) + 1 := by linarith
  have hpos : (0:ℝ) ≤ (x : ℝ) * Real.exp (-(k : ℝ) / 65536) + 1/2 := by positivity
  have := (Nat.floor_lt hpos).mpr (by exact_mod_cast hlt)
  omega

theorem umulnexps32_cnt65536_at_reset_threshold_pos :
    1 ≤ umulnexps32 4294967296 98304 := by
  unfold umulnexps32
  apply Nat.le_floor
  have h32 : ((4294967296 : ℕ) : ℝ) = 2^32 := by norm_num
  rw [h32]
  have harg : (-(98304 : ℝ) / 65536 : ℝ) = -(3/2) := by norm_num
  rw [show ((98304 : ℕ) : ℝ) = (98304 : ℝ) by norm_num, harg]
  have h1 : Real.exp (3/2) ≤ 8 := by
    have h2 : Real.exp (3/2) ≤ Real.exp 2 := Real.exp_le_exp.mpr (by norm_num)
    have h3 : Real.exp 2 = Real.exp 1 * Real.exp 1 := by
      rw [← Real.exp_add]; norm_num
    have h4 : Real.exp 1 < 2.7182818286 := Real.exp_one_lt_d9
    have h5 : Real.exp 1 * Real.exp 1 < 8 := by nlinarith [Real.exp_pos 1]
    linarith
  have hinv : (8 : ℝ)⁻¹ ≤ Real.exp (-(3/2)) := by
    rw [Real.exp_neg]
    exact inv_anti₀ (Real.exp_pos _) h1
  nlinarith [hinv]

/-- C3 counterexample.  On the valid state
`⟨last_updated 1, total 1, cnt2048 2^32, cnt65536 2^32⟩`, the call
`increase_by(1, 98305)` succeeds with `dt = 98304 = 48 * 2048` at the reset
threshold, yet the resulting `cnt65536` is not the claimed
"zero plus the new scaled count" (`1 <<< 32 = 2^32`): the hard reset in the
source applies to `cnt2048`, while `cnt65536` is decayed by `umulnexps32`
and keeps a nonzero decayed remainder. -/
theorem increase_by_long_window_not_reset_cex :
    (Counters.increase_by ⟨1, 1, 2^32, 2^32⟩ 1 98305).1 = true ∧
    48 * 2048 ≤ 98305 - 1 ∧
    (Counters.increase_by ⟨1, 1, 2^32, 2^32⟩ 1 98305).2.cnt65536 ≠ 1 * 2^32 := by
  have hval : Counters.is_valid ⟨1, 1, 2^32, 2^32⟩ = true := by
    unfold Counters.is_valid; norm_num
  have hpos := umulnexps32_cnt65536_at_reset_threshold_pos
  unfold Counters.increase_by
  rw [hval]
  norm_num
  omega


/-- C3 (amended).  For every valid `Counters` state with `total ≠ 0` and every
`(count, now)` passing the overflow checks, when the elapsed time
`dt = now - last_updated` is at or beyond the threshold `48 * 2048`, the
successful `increase_by(count, now)` hard-resets the short-window accumulator
`cnt2048` to zero before adding the scaled count, while the long-window
accumulator `cnt65536` is decayed by `umulnexps32` with no hard reset. -/
theorem increase_by_short_window_hard_reset (c : Counters) (count now : ℕ)
    (hv : c.is_valid = true) (h0 : c.total ≠ 0)
    (hovf : ¬(2^64 - 1 - c.total < count ∨ 2^64 - 1 - count * 2^32 % 2^64 < c.cnt2048 ∨
      2^64 - 1 - count * 2^32 % 2^64 < c.cnt65536))
    (hdt : 48 * 2048 ≤ now - c.last_updated) :
    (c.increase_by count now).1 = true ∧
    (c.increase_by count now).2.cnt2048 = 0 + count * 2^32 % 2^64 ∧
    (c.increase_by count now).2.cnt65536 =
      umulnexps32 c.cnt65536 (now - c.last_updated) + count * 2^32 % 2^64 := by
  unfold Counters.increase_by
  rw [hv]
  simp only [Bool.true_eq_false, if_false, if_neg h0, if_neg hovf]
  have hne : now - c.last_updated ≠ 0 := by omega
  simp only [if_pos hne, if_pos hdt]
  simp

/-- Witness for the amended C3 theorem at a concrete input. -/
theorem increase_by_short_window_hard_reset_witness :
    (Counters.increase_by ⟨1, 1, 2^32, 2^32⟩ 1 98305).1 = true ∧
    (Counters.increase_by ⟨1, 1, 2^32, 2^32⟩ 1 98305).2.cnt2048 = 0 + 1 * 2^32 % 2^64 ∧
    (Counters.increase_by ⟨1, 1, 2^32, 2^32⟩ 1 98305).2.cnt65536 =
      umulnexps32 (2^32) (98305 - 1) + 1 * 2^32 % 2^64 := by
  exact increase_by_short_window_hard_reset ⟨1, 1, 2^32, 2^32⟩ 1 98305
    (by unfold Counters.is_valid; norm_num)
    (by norm_num) (by norm_num) (by norm_num)

/-- Helper: a bitwise-or of naturals is zero only when both operands are. -/
theorem nat_lor_eq_zero (a b : ℕ) (h : a ||| b = 0) : a = 0 ∧ b = 0 := by
  constructor
  · apply Nat.eq_of_testBit_eq
    intro i
    have hx := congrArg (fun n => n.testBit i) h
    simp only [Nat.testBit_lor] at hx
    simpa using (Bool.or_eq_false_iff.mp (by simpa using hx)).1
  · apply Nat.eq_of_testBit_eq
    intro i
    have hx := congrArg (fun n => n.testBit i) h
    simp only [Nat.testBit_lor] at hx
    simpa using (Bool.or_eq_false_iff.mp (by simpa using hx)).2

/-- C4.  `increase_by(count, now)` returns `false` exactly when the counter is
in an invalid state or when adding `count` to `total`, or the scaled count
(`count <<< 32`, wrapped to 64 bits) to either decayed accumulator, would
overflow a 64-bit integer; on failure all four fields are left unchanged, and
on success no field wraps (all stay below `2^64`). -/
theorem increase_by_rejects_on_overflow (c : Counters) (count now : ℕ)
    (ht : c.total < 2^64) (h2 : c.cnt2048 < 2^64) (h6 : c.cnt65536 < 2^64)
    (hcount : count < 2^64) :
    ((c.increase_by count now).1 = false ↔
      (c.is_valid = false ∨ 2^64 ≤ c.total + count ∨
       2^64 ≤ c.cnt2048 + count * 2^32 % 2^64 ∨ 2^64 ≤ c.cnt65536 + count * 2^32 % 2^64)) ∧
    ((c.increase_by count now).1 = false → (c.increase_by count now).2 = c) ∧
    ((c.increase_by count now).1 = true →
      (c.increase_by count now).2.total < 2^64 ∧
      (c.increase_by count now).2.cnt2048 < 2^64 ∧
      (c.increase_by count now).2.cnt65536 < 2^64) := by
  have hmod : count * 2^32 % 2^64 < 2^64 := Nat.mod_lt _ (by norm_num)
  unfold Counters.increase_by
  rcases hval : c.is_valid with _ | _
  · simp
  · simp only [Bool.true_eq_false, if_false]
    by_cases h0 : c.total = 0
    · have hz : c.cnt2048 = 0 ∧ c.cnt65536 = 0 := by
        unfold Counters.is_valid at hval
        rw [if_pos h0] at hval
        exact nat_lor_eq_zero _ _ (by simpa using hval)
      rw [if_pos h0]
      refine ⟨?_, by simp, by intro _; exact ⟨hcount, hmod, hmod⟩⟩
      simp only [Prod.fst]
      constructor
      · intro hfalse; exact absurd hfalse (by simp)
      · intro hor
        rcases hor with h | h | h | h
        · exact h.elim
        · omega
        · rw [hz.1] at h; omega
        · rw [hz.2] at h; omega
    · rw [if_neg h0]
      by_cases hovf : 2^64 - 1 - c.total < count ∨ 2^64 - 1 - count * 2^32 % 2^64 < c.cnt2048 ∨
          2^64 - 1 - count * 2^32 % 2^64 < c.cnt65536
      · rw [if_pos hovf]
        refine ⟨?_, by simp, by simp⟩
        constructor
        · intro _
          right
          rcases hovf with h | h | h
          · left; omega
          · right; left; omega
          · right; right; omega
        · intro _; rfl
      · rw [if_neg hovf]
        push_neg at hovf
        obtain ⟨ho1, ho2, ho3⟩ := hovf
        refine ⟨?_, by simp, ?_⟩
        · constructor
          · intro hfalse; exact absurd hfalse (by simp)
          · intro hor
            rcases hor with h | h | h | h
            · exact h.elim
            · omega
            · omega
            · omega
        · intro _
          dsimp only
          refine ⟨by omega, ?_, ?_⟩
          · have hle : (if now - c.last_updated ≠ 0 then
                (if 48 * 2048 ≤ now - c.last_updated then 0
                 else umulnexps32 c.cnt2048 ((now - c.last_updated) * 32 % 2^32))
               else c.cnt2048) ≤ c.cnt2048 := by
              split
              · split
                · omega
                · exact umulnexps32_le _ _
              · omega
            omega
          · have hle : (if now - c.last_updated ≠ 0 then
                umulnexps32 c.cnt65536 (now - c.last_updated) else c.cnt65536) ≤ c.cnt65536 := by
              split
              · exact umulnexps32_le _ _
              · omega
            omega

/-- Witness for C4 at a concrete input. -/
theorem increase_by_rejects_on_overflow_witness :
    ((0:ℕ) < 2^64 ∧ (1:ℕ) < 2^64) ∧
    ((Counters.increase_by ⟨0, 0, 0, 0⟩ 1 5).1 = false ↔
      (Counters.is_valid ⟨0, 0, 0, 0⟩ = false ∨ 2^64 ≤ 0 + 1 ∨
       2^64 ≤ 0 + 1 * 2^32 % 2^64 ∨ 2^64 ≤ 0 + 1 * 2^32 % 2^64)) := by
  have h := increase_by_rejects_on_overflow ⟨0, 0, 0, 0⟩ 1 5
    (by norm_num) (by norm_num) (by norm_num) (by norm_num)
  exact ⟨⟨by norm_num, by norm_num⟩, h.1⟩

/-- C5 counterexample.  The valid state
`⟨last_updated 1, total 1, cnt2048 2^32, cnt65536 2^32⟩` subjected to a
successful `increase_by(1, 0)` (the clock reading `now = 0`) ends with
`total ≠ 0` and `last_updated = 0`, violating the validity invariant. -/
theorem increase_by_invariant_cex :
    Counters.is_valid ⟨1, 1, 2^32, 2^32⟩ = true ∧
    (Counters.increase_by ⟨1, 1, 2^32, 2^32⟩ 1 0).1 = true ∧
    (Counters.increase_by ⟨1, 1, 2^32, 2^32⟩ 1 0).2.is_valid = false := by
  have hval : Counters.is_valid ⟨1, 1, 2^32, 2^32⟩ = true := by
    unfold Counters.is_valid; norm_num
  refine ⟨hval, ?_, ?_⟩
  · unfold Counters.increase_by
    rw [hval]
    norm_num
  · unfold Counters.increase_by
    rw [hval]
    norm_num
    unfold Counters.is_valid
    norm_num

/-- C5 (amended).  The `Counters` validity invariant is preserved by every
successful `increase_by(count, now)` with a nonzero clock reading `now`. -/
theorem increase_by_preserves_is_valid (c : Counters) (count now : ℕ)
    (hv : c.is_valid = true) (hnow : now ≠ 0)
    (hs : (c.increase_by count now).1 = true) :
    (c.increase_by count now).2.is_valid = true := by
  unfold Counters.increase_by at hs ⊢
  rw [hv] at hs ⊢
  simp only [Bool.true_eq_false, if_false] at hs ⊢
  by_cases h0 : c.total = 0
  · rw [if_pos h0] at hs ⊢
    unfold Counters.is_valid
    by_cases hc : count = 0
    · subst hc
      norm_num
    · simp only [Prod.snd]
      rw [if_neg hc]
      simpa using hnow
  · rw [if_neg h0] at hs ⊢
    by_cases hovf : 2^64 - 1 - c.total < count ∨ 2^64 - 1 - count * 2^32 % 2^64 < c.cnt2048 ∨
        2^64 - 1 - count * 2^32 % 2^64 < c.cnt65536
    · rw [if_pos hovf] at hs
      exact absurd hs (by simp)
    · rw [if_neg hovf]
      unfold Counters.is_valid
      simp only [Prod.snd]
      rw [if_neg (by omega : ¬(c.total + count = 0))]
      simpa using hnow

/-- Witness for the amended C5 theorem at a concrete input. -/
theorem increase_by_preserves_is_valid_witness :
    (Counters.increase_by ⟨0, 0, 0, 0⟩ 3 5).2.is_valid = true := by
  apply increase_by_preserves_is_valid ⟨0, 0, 0, 0⟩ 3 5
  · unfold Counters.is_valid; norm_num
  · norm_num
  · unfold Counters.increase_by Counters.is_valid; norm_num

/-- C10.  On a valid counter with `total = 0`, `increase_by(count, now)`
always succeeds with no overflow check: it sets `total = count` and both
accumulators to `count <<< 32` reduced modulo `2^64`, so for `count ≥ 2^32`
the accumulators are silently truncated rather than rejected. -/
theorem increase_by_first_observation_truncates (c : Counters) (count now : ℕ)
    (hv : c.is_valid = true) (h0 : c.total = 0) :
    c.increase_by count now = (true, ⟨now, count, count * 2^32 % 2^64, count * 2^32 % 2^64⟩) := by
  unfold Counters.increase_by
  rw [hv, if_pos h0]
  simp

/-- Witness for C10, with `count = 2^32` exhibiting the truncation to zero. -/
theorem increase_by_first_observation_truncates_witness :
    Counters.is_valid ⟨0, 0, 0, 0⟩ = true ∧
    Counters.increase_by ⟨0, 0, 0, 0⟩ (2^32) 7 = (true, ⟨7, 2^32, 0, 0⟩) := by
  have hv : Counters.is_valid ⟨0, 0, 0, 0⟩ = true := by
    unfold Counters.is_valid; norm_num
  have h := increase_by_first_observation_truncates ⟨0, 0, 0, 0⟩ (2^32) 7 hv rfl
  have hm : (2^32 * 2^32 % 2^64 : ℕ) = 0 := by norm_num
  rw [hm] at h
  exact ⟨hv, h⟩

/-! ### Key-block index (`OldMcBlocksInfo`, master.rs 601-846) -/

/-- Modelled from the spec: 256-bit hash values are opaque external values;
only equality matters to the structures verified here. -/
structure UInt256 where
  val : ℕ
deriving DecidableEq

/-- Modelled from the spec: `ExtBlkRef` (external block reference) carries
`end_lt`, `seq_no` and the two hashes; it is a plain pass-through record. -/
structure ExtBlkRef where
  end_lt : ℕ
  seq_no : ℕ
  root_hash : UInt256
  file_hash : UInt256
deriving DecidableEq

/-- `_ key:Bool blk_ref:ExtBlkRef = KeyExtBlkRef` (master.rs 667-672). -/
structure KeyExtBlkRef where
  key : Bool
  blk_ref : ExtBlkRef
deriving DecidableEq

/-- `_ key:Bool max_end_lt:uint64 = KeyMaxLt` (master.rs 601-611). -/
structure KeyMaxLt where
  key : Bool
  max_end_lt : ℕ
deriving DecidableEq

/-- `Augmentable for KeyMaxLt::calc` (master.rs 655-665). -/
def KeyMaxLt.calc (a b : KeyMaxLt) : KeyMaxLt :=
  ⟨if b.key then true else a.key,
   if a.max_end_lt < b.max_end_lt then b.max_end_lt else a.max_end_lt⟩

/-- `Augmentation<KeyMaxLt> for KeyExtBlkRef::aug` (master.rs 702-709). -/
def KeyExtBlkRef.aug (v : KeyExtBlkRef) : KeyMaxLt := ⟨v.key, v.blk_ref.end_lt⟩

/-- Modelled from the spec: `OldMcBlocksInfo` is
`HashmapAugE 32 KeyExtBlkRef KeyMaxLt` (master.rs 711-713), a label-compressed
binary trie over 32-bit keys whose edges carry bit labels and whose leaves sit
at depth exactly 32; the `HashmapAugE` container itself lives outside
`src/master.rs`.  `label` is the bit label on the edge entering the node. -/
inductive OldMcBlocksInfo where
  | leaf (label : List Bool) (v : KeyExtBlkRef)
  | fork (label : List Bool) (l r : OldMcBlocksInfo)
deriving DecidableEq

/-- The aggregate of a subtree.  The real container stores the aggregate at
each node and maintains it equal to the fold of the children (combining with
`KeyMaxLt.calc`, leaf aggregates via `KeyExtBlkRef.aug`); we compute that
fold directly, which models every consistently-augmented dictionary. -/
def OldMcBlocksInfo.aug : OldMcBlocksInfo → KeyMaxLt
  | .leaf _ v => v.aug
  | .fork _ l r => KeyMaxLt.calc l.aug r.aug

/-- The value handed to the traversal callback: present exactly at leaves. -/
def OldMcBlocksInfo.node_value : OldMcBlocksInfo → Option KeyExtBlkRef
  | .leaf _ v => some v
  | .fork _ _ _ => none

/-- Append one bit to a numeric bit-prefix. -/
def pushBit (p : ℕ) (b : Bool) : ℕ := 2 * p + cond b 1 0

/-- Append a bit label to a numeric bit-prefix. -/
def pushBits (p : ℕ) (l : List Bool) : ℕ := l.foldl pushBit p

/-- Well-formedness of a dictionary subtree sitting below a prefix of length
`len`: every leaf is at depth exactly 32 (keys are fixed 32-bit patterns). -/
def OldMcBlocksInfo.wfFrom : OldMcBlocksInfo → ℕ → Bool
  | .leaf lab _, len => len + lab.length == 32
  | .fork lab l r, len =>
    (len + lab.length < 32 : Bool) && l.wfFrom (len + lab.length + 1) &&
      r.wfFrom (len + lab.length + 1)

/-- `TraverseNextStep` of the augmented-dictionary traversal (external
`dictionary::hashmapaug`); modelled from the spec: a per-node decision to
prune, visit one child, visit both children in a given order, or stop with a
result. -/
inductive TraverseNextStep (α : Type) where
  | Stop
  | VisitZero
  | VisitOne
  | VisitZeroOne
  | VisitOneZero
  | End (x : α)

/-- Modelled from the spec: the pruning traversal of `HashmapAugE`.  At each
node the callback receives the consumed key prefix (left-aligned into 32 bits,
as the byte buffer handed to `build_key_part`), its bit length, the node's
aggregate and, at a leaf, its value; the returned step directs the descent,
`VisitZeroOne`/`VisitOneZero` trying the second child only when the first
yields nothing. -/
def OldMcBlocksInfo.traverse {α : Type}
    (f : ℕ → ℕ → KeyMaxLt → Option KeyExtBlkRef → TraverseNextStep α) :
    OldMcBlocksInfo → ℕ → ℕ → Option α
  | .leaf lab v, pfx, len =>
    match f (pushBits pfx lab * 2^(32 - (len + lab.length))) (len + lab.length)
        (OldMcBlocksInfo.leaf lab v).aug (some v) with
    | .End x => some x
    | _ => none
  | .fork lab l r, pfx, len =>
    match f (pushBits pfx lab * 2^(32 - (len + lab.length))) (len + lab.length)
        (OldMcBlocksInfo.fork lab l r).aug none with
    | .Stop => none
    | .End x => some x
    | .VisitZero => l.traverse f (pushBit (pushBits pfx lab) false) (len + lab.length + 1)
    | .VisitOne => r.traverse f (pushBit (pushBits pfx lab) true) (len + lab.length + 1)
    | .VisitZeroOne =>
      match l.traverse f (pushBit (pushBits pfx lab) false) (len + lab.length + 1) with
      | some x => some x
      | none => r.traverse f (pushBit (pushBits pfx lab) true) (len + lab.length + 1)
    | .VisitOneZero =>
      match r.traverse f (pushBit (pushBits pfx lab) true) (len + lab.length + 1) with
      | some x => some x
      | none => l.traverse f (pushBit (pushBits pfx lab) false) (len + lab.length + 1)

/-- `OldMcBlocksInfo::build_key_part` (master.rs 836-845): recover the integer
key prefix from the left-aligned buffer by shifting right by `32 - len`
(the `key_prefix_len > 32` failure cannot arise during a traversal of a
well-formed 32-bit dictionary). -/
def build_key_part (key_pref : ℕ) (key_pref_len : ℕ) : ℕ :=
  key_pref / 2^(32 - key_pref_len)

/-- The traversal callback of `get_prev_key_block` (master.rs 719-750),
line for line: prune key-less subtrees, test leaves against `x ≤ req_seqno`,
otherwise compare `y = req_seqno >> (d-1)` with `2x` to stop, visit only the
left child, or visit right-then-left.  (The source raises an error when a
depth-32 node has no value; that cannot happen in a well-formed dictionary,
where depth-32 nodes are exactly the leaves.) -/
def prev_step (req_seqno : ℕ) (key_pref key_pref_len : ℕ) (aug : KeyMaxLt)
    (value_opt : Option KeyExtBlkRef) : TraverseNextStep KeyExtBlkRef :=
  if aug.key = false then .Stop
  else
    let x := build_key_part key_pref key_pref_len
    let d := 32 - key_pref_len
    if d = 0 then
      if x ≤ req_seqno then
        match value_opt with
        | some v => .End v
        | none => .Stop
      else .Stop
    else
      let y := req_seqno / 2^(d - 1)
      if y < 2 * x then .Stop
      else if y = 2 * x then .VisitZero
      else .VisitOneZero

/-- The traversal callback of `get_next_key_block` (master.rs 763-794),
mirrored: compare `y` with `2x + 1` to stop, visit only the right child, or
visit left-then-right. -/
def next_step (req_seqno : ℕ) (key_pref key_pref_len : ℕ) (aug : KeyMaxLt)
    (value_opt : Option KeyExtBlkRef) : TraverseNextStep KeyExtBlkRef :=
  if aug.key = false then .Stop
  else
    let x := build_key_part key_pref key_pref_len
    let d := 32 - key_pref_len
    if d = 0 then
      if req_seqno ≤ x then
        match value_opt with
        | some v => .End v
        | none => .Stop
      else .Stop
    else
      let y := req_seqno / 2^(d - 1)
      if 2 * x + 1 < y then .Stop
      else if y = 2 * x + 1 then .VisitOne
      else .VisitZeroOne

/-- `OldMcBlocksInfo::get_prev_key_block` (master.rs 718-759). -/
def get_prev_key_block (t : OldMcBlocksInfo) (req_seqno : ℕ) : Option ExtBlkRef :=
  (t.traverse (prev_step req_seqno) 0 0).map (fun v => v.blk_ref)

/-- `OldMcBlocksInfo::get_next_key_block` (master.rs 762-803). -/
def get_next_key_block (t : OldMcBlocksInfo) (req_seqno : ℕ) : Option ExtBlkRef :=
  (t.traverse (next_step req_seqno) 0 0).map (fun v => v.blk_ref)

/-- All `(key, value)` entries of a dictionary subtree below prefix
`(pfx, len)`, in ascending key order. -/
def OldMcBlocksInfo.entries : OldMcBlocksInfo → ℕ → ℕ → List (ℕ × KeyExtBlkRef)
  | .leaf lab v, pfx, len => [(pushBits pfx lab * 2^(32 - (len + lab.length)), v)]
  | .fork lab l r, pfx, len =>
    l.entries (pushBit (pushBits pfx lab) false) (len + lab.length + 1) ++
    r.entries (pushBit (pushBits pfx lab) true) (len + lab.length + 1)

/-- One step of the brute-force linear scan of the spec for the predecessor
query: keep the key-flagged entry with maximal key among those `≤ req`. -/
def scan_prev_step (req : ℕ) (acc : Option (ℕ × KeyExtBlkRef)) (e : ℕ × KeyExtBlkRef) :
    Option (ℕ × KeyExtBlkRef) :=
  if e.2.key = true ∧ e.1 ≤ req then
    match acc with
    | none => some e
    | some b => if b.1 ≤ e.1 then some e else some b
  else acc

/-- One step of the brute-force linear scan of the spec for the successor
query: keep the key-flagged entry with minimal key among those `≥ req`. -/
def scan_next_step (req : ℕ) (acc : Option (ℕ × KeyExtBlkRef)) (e : ℕ × KeyExtBlkRef) :
    Option (ℕ × KeyExtBlkRef) :=
  if e.2.key = true ∧ req ≤ e.1 then
    match acc with
    | none => some e
    | some b => if e.1 < b.1 then some e else some b
  else acc

/-- The spec's brute-force reference: linear scan of all entries for the
key-flagged entry with maximal key `≤ req`. -/
def prev_key_block_linear_scan (t : OldMcBlocksInfo) (req : ℕ) : Option ExtBlkRef :=
  ((t.entries 0 0).foldl (scan_prev_step req) none).map (fun e => e.2.blk_ref)

/-- The spec's brute-force reference: linear scan of all entries for the
key-flagged entry with minimal key `≥ req`. -/
def next_key_block_linear_scan (t : OldMcBlocksInfo) (req : ℕ) : Option ExtBlkRef :=
  ((t.entries 0 0).foldl (scan_next_step req) none).map (fun e => e.2.blk_ref)

theorem pushBits_lb (l : List Bool) : ∀ p, p * 2^l.length ≤ pushBits p l := by
  induction l with
  | nil => intro p; simp [pushBits]
  | cons b bs ih =>
    intro p
    have h := ih (pushBit p b)
    have hb : 2 * p * 2^bs.length ≤ pushBit p b * 2^bs.length := by
      have : 2 * p ≤ pushBit p b := by cases b <;> simp [pushBit] <;> omega
      exact Nat.mul_le_mul_right _ this
    calc p * 2^(b :: bs).length = 2 * p * 2^bs.length := by
          simp [List.length_cons, pow_succ]; ring
      _ ≤ pushBit p b * 2^bs.length := hb
      _ ≤ pushBits (pushBit p b) bs := h
      _ = pushBits p (b :: bs) := rfl

theorem pushBits_ub (l : List Bool) : ∀ p, pushBits p l < (p + 1) * 2^l.length := by
  induction l with
  | nil => intro p; simp [pushBits]
  | cons b bs ih =>
    intro p
    have h := ih (pushBit p b)
    have hb : (pushBit p b + 1) * 2^bs.length ≤ (p + 1) * 2^(b :: bs).length := by
      have h1 : pushBit p b + 1 ≤ 2 * (p + 1) := by cases b <;> simp [pushBit] <;> omega
      calc (pushBit p b + 1) * 2^bs.length ≤ 2 * (p + 1) * 2^bs.length :=
            Nat.mul_le_mul_right _ h1
        _ = (p + 1) * 2^(b :: bs).length := by
            simp [List.length_cons, pow_succ]; ring
    calc pushBits p (b :: bs) = pushBits (pushBit p b) bs := rfl
      _ < (pushBit p b + 1) * 2^bs.length := h
      _ ≤ (p + 1) * 2^(b :: bs).length := hb

theorem aug_key_iff (t : OldMcBlocksInfo) : ∀ pfx len,
    (t.aug.key = true ↔ ∃ e ∈ t.entries pfx len, e.2.key = true) := by
  induction t with
  | leaf lab v =>
    intro pfx len
    simp [OldMcBlocksInfo.aug, OldMcBlocksInfo.entries, KeyExtBlkRef.aug]
  | fork lab l r ihl ihr =>
    intro pfx len
    simp only [OldMcBlocksInfo.aug, OldMcBlocksInfo.entries, KeyMaxLt.calc]
    constructor
    · intro h
      by_cases hr : r.aug.key = true
      · obtain ⟨e, he, hk⟩ := (ihr (pushBit (pushBits pfx lab) true) (len + lab.length + 1)).mp hr
        exact ⟨e, List.mem_append_right _ he, hk⟩
      · simp only [Bool.not_eq_true] at hr
        rw [hr] at h
        simp at h
        obtain ⟨e, he, hk⟩ := (ihl (pushBit (pushBits pfx lab) false) (len + lab.length + 1)).mp h
        exact ⟨e, List.mem_append_left _ he, hk⟩
    · rintro ⟨e, he, hk⟩
      rcases List.mem_append.mp he with he | he
      · have := (ihl (pushBit (pushBits pfx lab) false) (len + lab.length + 1)).mpr ⟨e, he, hk⟩
        rw [this]
        split <;> rfl
      · have := (ihr (pushBit (pushBits pfx lab) true) (len + lab.length + 1)).mpr ⟨e, he, hk⟩
        rw [this]
        simp

theorem entries_bounds (t : OldMcBlocksInfo) : ∀ pfx len,
    t.wfFrom len = true → len ≤ 32 →
    ∀ e ∈ t.entries pfx len,
      pfx * 2^(32 - len) ≤ e.1 ∧ e.1 < (pfx + 1) * 2^(32 - len) := by
  induction t with
  | leaf lab v =>
    intro pfx len hwf hlen e he
    simp only [OldMcBlocksInfo.wfFrom, beq_iff_eq] at hwf
    simp only [OldMcBlocksInfo.entries, List.mem_singleton] at he
    subst he
    have hl : lab.length = 32 - len := by omega
    have h32 : 32 - (len + lab.length) = 0 := by omega
    simp only [h32, pow_zero, Nat.mul_one]
    rw [← hl]
    exact ⟨pushBits_lb lab pfx, pushBits_ub lab pfx⟩
  | fork lab l r ihl ihr =>
    intro pfx len hwf hlen e he
    simp only [OldMcBlocksInfo.wfFrom, Bool.and_eq_true, decide_eq_true_eq] at hwf
    obtain ⟨⟨hlt, hwl⟩, hwr⟩ := hwf
    set m := pushBits pfx lab with hm
    have hlen' : len + lab.length + 1 ≤ 32 := by omega
    have hsplit : 2^(32 - len) = 2^lab.length * 2 * 2^(32 - (len + lab.length + 1)) := by
      rw [← pow_succ, ← pow_add]
      congr 1
      omega
    have hmlb : pfx * 2^lab.length ≤ m := pushBits_lb lab pfx
    have hmub : m < (pfx + 1) * 2^lab.length := pushBits_ub lab pfx
    rcases List.mem_append.mp he with he | he
    · obtain ⟨h1, h2⟩ := ihl (pushBit m false) (len + lab.length + 1) hwl hlen' e he
      simp only [pushBit, cond_false, Nat.add_zero] at h1 h2
      constructor
      · calc pfx * 2^(32 - len) = pfx * 2^lab.length * 2 * 2^(32 - (len + lab.length + 1)) := by
              rw [hsplit]; ring
          _ ≤ m * 2 * 2^(32 - (len + lab.length + 1)) := by
              have := Nat.mul_le_mul_right (2 * 2^(32 - (len + lab.length + 1))) hmlb
              calc pfx * 2^lab.length * 2 * 2^(32 - (len + lab.length + 1))
                  = pfx * 2^lab.length * (2 * 2^(32 - (len + lab.length + 1))) := by ring
                _ ≤ m * (2 * 2^(32 - (len + lab.length + 1))) := this
                _ = m * 2 * 2^(32 - (len + lab.length + 1)) := by ring
          _ = 2 * m * 2^(32 - (len + lab.length + 1)) := by ring
          _ ≤ e.1 := h1
      · calc e.1 < (2 * m + 1) * 2^(32 - (len + lab.length + 1)) := h2
          _ ≤ (pfx + 1) * 2^(32 - len) := by
              rw [hsplit]
              have h3 : 2 * m + 1 ≤ (pfx + 1) * 2^lab.length * 2 := by omega
              calc (2 * m + 1) * 2^(32 - (len + lab.length + 1))
                  ≤ (pfx + 1) * 2^lab.length * 2 * 2^(32 - (len + lab.length + 1)) :=
                    Nat.mul_le_mul_right _ h3
                _ = (pfx + 1) * (2^lab.length * 2 * 2^(32 - (len + lab.length + 1))) := by ring
    · obtain ⟨h1, h2⟩ := ihr (pushBit m true) (len + lab.length + 1) hwr hlen' e he
      simp only [pushBit, cond_true] at h1 h2
      constructor
      · calc pfx * 2^(32 - len) = pfx * 2^lab.length * 2 * 2^(32 - (len + lab.length + 1)) := by
              rw [hsplit]; ring
          _ ≤ (2 * m + 1) * 2^(32 - (len + lab.length + 1)) := by
              have h3 : pfx * 2^lab.length * 2 ≤ 2 * m + 1 := by omega
              exact Nat.mul_le_mul_right _ h3
          _ ≤ e.1 := h1
      · calc e.1 < (2 * m + 1 + 1) * 2^(32 - (len + lab.length + 1)) := h2
          _ ≤ (pfx + 1) * 2^(32 - len) := by
              rw [hsplit]
              have h3 : 2 * m + 1 + 1 ≤ (pfx + 1) * 2^lab.length * 2 := by omega
              calc (2 * m + 1 + 1) * 2^(32 - (len + lab.length + 1))
                  ≤ (pfx + 1) * 2^lab.length * 2 * 2^(32 - (len + lab.length + 1)) :=
                    Nat.mul_le_mul_right _ h3
                _ = (pfx + 1) * (2^lab.length * 2 * 2^(32 - (len + lab.length + 1))) := by ring


theorem scan_prev_no_cand (req : ℕ) (l : List (ℕ × KeyExtBlkRef))
    (h : ∀ e ∈ l, ¬(e.2.key = true ∧ e.1 ≤ req)) :
    ∀ acc, l.foldl (scan_prev_step req) acc = acc := by
  induction l with
  | nil => intro acc; rfl
  | cons e tl ih =>
    intro acc
    have he : ¬(e.2.key = true ∧ e.1 ≤ req) := h e (List.mem_cons_self _ _)
    simp only [List.foldl_cons, scan_prev_step, if_neg he]
    exact ih (fun x hx => h x (List.mem_cons_of_mem _ hx)) acc

theorem scan_prev_some_stays (req : ℕ) (l : List (ℕ × KeyExtBlkRef)) :
    ∀ b, ∃ c, l.foldl (scan_prev_step req) (some b) = some c := by
  induction l with
  | nil => intro b; exact ⟨b, rfl⟩
  | cons e tl ih =>
    intro b
    simp only [List.foldl_cons, scan_prev_step]
    split
    · split
      · exact ih e
      · exact ih b
    · exact ih b

theorem scan_prev_mem (req : ℕ) (l : List (ℕ × KeyExtBlkRef)) :
    ∀ acc b, l.foldl (scan_prev_step req) acc = some b → b ∈ l ∨ acc = some b := by
  induction l with
  | nil => intro acc b h; exact Or.inr h
  | cons e tl ih =>
    intro acc b h
    simp only [List.foldl_cons] at h
    rcases ih _ b h with hm | hm
    · exact Or.inl (List.mem_cons_of_mem _ hm)
    · simp only [scan_prev_step] at hm
      split at hm
      · split at hm
        · exact Or.inl (by simp only [Option.some_inj] at hm; rw [← hm]; exact List.mem_cons_self _ _)
        · split at hm
          · exact Or.inl (by simp only [Option.some_inj] at hm; rw [← hm]; exact List.mem_cons_self _ _)
          · exact Or.inr hm
      · exact Or.inr hm

theorem scan_prev_absorb (req : ℕ) (l : List (ℕ × KeyExtBlkRef)) :
    ∀ b, (∀ e ∈ l, b.1 ≤ e.1) →
    l.foldl (scan_prev_step req) (some b) =
      (match l.foldl (scan_prev_step req) none with
       | none => some b
       | some c => some c) := by
  induction l with
  | nil => intro b _; rfl
  | cons e tl ih =>
    intro b hle
    by_cases hc : e.2.key = true ∧ e.1 ≤ req
    · have hb : b.1 ≤ e.1 := hle e (List.mem_cons_self _ _)
      simp only [List.foldl_cons, scan_prev_step, if_pos hc, if_pos hb]
      obtain ⟨c, hcst⟩ := scan_prev_some_stays req tl e
      rw [hcst]
    · simp only [List.foldl_cons, scan_prev_step, if_neg hc]
      exact ih b (fun x hx => hle x (List.mem_cons_of_mem _ hx))

theorem scan_prev_append (req : ℕ) (l1 l2 : List (ℕ × KeyExtBlkRef))
    (h : ∀ e1 ∈ l1, ∀ e2 ∈ l2, e1.1 ≤ e2.1) :
    (l1 ++ l2).foldl (scan_prev_step req) none =
      (match l2.foldl (scan_prev_step req) none with
       | some c => some c
       | none => l1.foldl (scan_prev_step req) none) := by
  rw [List.foldl_append]
  rcases h1 : l1.foldl (scan_prev_step req) none with _ | b
  · rcases h2 : l2.foldl (scan_prev_step req) none with _ | c
    · rfl
    · rfl
  · have hb : b ∈ l1 := by
      rcases scan_prev_mem req l1 none b h1 with hm | hm
      · exact hm
      · exact absurd hm (by simp)
    rw [scan_prev_absorb req l2 b (fun e he => h b hb e he)]
    rcases l2.foldl (scan_prev_step req) none with _ | c
    · rfl
    · rfl

theorem scan_next_no_cand (req : ℕ) (l : List (ℕ × KeyExtBlkRef))
    (h : ∀ e ∈ l, ¬(e.2.key = true ∧ req ≤ e.1)) :
    ∀ acc, l.foldl (scan_next_step req) acc = acc := by
  induction l with
  | nil => intro acc; rfl
  | cons e tl ih =>
    intro acc
    have he : ¬(e.2.key = true ∧ req ≤ e.1) := h e (List.mem_cons_self _ _)
    simp only [List.foldl_cons, scan_next_step, if_neg he]
    exact ih (fun x hx => h x (List.mem_cons_of_mem _ hx)) acc

theorem scan_next_mem (req : ℕ) (l : List (ℕ × KeyExtBlkRef)) :
    ∀ acc b, l.foldl (scan_next_step req) acc = some b → b ∈ l ∨ acc = some b := by
  induction l with
  | nil => intro acc b h; exact Or.inr h
  | cons e tl ih =>
    intro acc b h
    simp only [List.foldl_cons] at h
    rcases ih _ b h with hm | hm
    · exact Or.inl (List.mem_cons_of_mem _ hm)
    · simp only [scan_next_step] at hm
      split at hm
      · split at hm
        · exact Or.inl (by simp only [Option.some_inj] at hm; rw [← hm]; exact List.mem_cons_self _ _)
        · split at hm
          · exact Or.inl (by simp only [Option.some_inj] at hm; rw [← hm]; exact List.mem_cons_self _ _)
          · exact Or.inr hm
      · exact Or.inr hm

theorem scan_next_absorb_keep (req : ℕ) (l : List (ℕ × KeyExtBlkRef)) :
    ∀ b, (∀ e ∈ l, b.1 ≤ e.1) →
    l.foldl (scan_next_step req) (some b) = some b := by
  induction l with
  | nil => intro b _; rfl
  | cons e tl ih =>
    intro b hle
    have hb : b.1 ≤ e.1 := hle e (List.mem_cons_self _ _)
    have hnot : ¬(e.1 < b.1) := by omega
    by_cases hc : e.2.key = true ∧ req ≤ e.1
    · simp only [List.foldl_cons, scan_next_step, if_pos hc, if_neg hnot]
      exact ih b (fun x hx => hle x (List.mem_cons_of_mem _ hx))
    · simp only [List.foldl_cons, scan_next_step, if_neg hc]
      exact ih b (fun x hx => hle x (List.mem_cons_of_mem _ hx))

theorem scan_next_append (req : ℕ) (l1 l2 : List (ℕ × KeyExtBlkRef))
    (h : ∀ e1 ∈ l1, ∀ e2 ∈ l2, e1.1 ≤ e2.1) :
    (l1 ++ l2).foldl (scan_next_step req) none =
      (match l1.foldl (scan_next_step req) none with
       | some b => some b
       | none => l2.foldl (scan_next_step req) none) := by
  rw [List.foldl_append]
  rcases h1 : l1.foldl (scan_next_step req) none with _ | b
  · rfl
  · have hb : b ∈ l1 := by
      rcases scan_next_mem req l1 none b h1 with hm | hm
      · exact hm
      · exact absurd hm (by simp)
    exact scan_next_absorb_keep req l2 b (fun e he => h b hb e he)


theorem build_key_part_padded (m w : ℕ) (hw : w ≤ 32) :
    build_key_part (m * 2^(32 - w)) w = m := by
  unfold build_key_part
  exact Nat.mul_div_cancel m (Nat.pos_pow_of_pos _ (by norm_num))

/-- The guided descent of `get_prev_key_block` computes, on every well-formed
subtree, exactly what the linear scan computes. -/
theorem traverse_prev_eq_scan (req : ℕ) (t : OldMcBlocksInfo) :
    ∀ pfx len, t.wfFrom len = true → len ≤ 32 →
    t.traverse (prev_step req) pfx len =
      ((t.entries pfx len).foldl (scan_prev_step req) none).map (fun e => e.2) := by
  induction t with
  | leaf lab v =>
    intro pfx len hwf _hlen
    simp only [OldMcBlocksInfo.wfFrom, beq_iff_eq] at hwf
    have hd : 32 - (len + lab.length) = 0 := by omega
    simp only [OldMcBlocksInfo.traverse, OldMcBlocksInfo.entries, hd, pow_zero, Nat.mul_one]
    have hx : build_key_part (pushBits pfx lab) (len + lab.length) = pushBits pfx lab := by
      simp [build_key_part, hd]
    by_cases hk : v.key = true
    · by_cases hle : pushBits pfx lab ≤ req
      · have hstep : prev_step req (pushBits pfx lab) (len + lab.length)
            (OldMcBlocksInfo.leaf lab v).aug (some v) = TraverseNextStep.End v := by
          simp only [prev_step, OldMcBlocksInfo.aug, KeyExtBlkRef.aug, hx, hd]
          rw [if_neg (by simp [hk]), if_pos trivial, if_pos hle]
        rw [hstep]
        simp only [List.foldl_cons, List.foldl_nil, scan_prev_step]
        rw [if_pos (⟨hk, hle⟩ : _ ∧ _)]
        rfl
      · have hstep : prev_step req (pushBits pfx lab) (len + lab.length)
            (OldMcBlocksInfo.leaf lab v).aug (some v) = TraverseNextStep.Stop := by
          simp only [prev_step, OldMcBlocksInfo.aug, KeyExtBlkRef.aug, hx, hd]
          rw [if_neg (by simp [hk]), if_pos trivial, if_neg hle]
        rw [hstep]
        simp only [List.foldl_cons, List.foldl_nil, scan_prev_step]
        rw [if_neg (fun h => hle h.2)]
        rfl
    · simp only [Bool.not_eq_true] at hk
      have hstep : prev_step req (pushBits pfx lab) (len + lab.length)
          (OldMcBlocksInfo.leaf lab v).aug (some v) = TraverseNextStep.Stop := by
        simp only [prev_step, OldMcBlocksInfo.aug, KeyExtBlkRef.aug, hk]
        rw [if_pos trivial]
      rw [hstep]
      simp only [List.foldl_cons, List.foldl_nil, scan_prev_step]
      rw [if_neg (by simp [hk])]
      rfl
  | fork lab l r ihl ihr =>
    intro pfx len hwf hlen
    simp only [OldMcBlocksInfo.wfFrom, Bool.and_eq_true, decide_eq_true_eq] at hwf
    obtain ⟨⟨hlt, hwl⟩, hwr⟩ := hwf
    have hlen1 : len + lab.length + 1 ≤ 32 := by omega
    have hd0 : 32 - (len + lab.length) ≠ 0 := by omega
    have hdd : 32 - (len + lab.length + 1) = 32 - (len + lab.length) - 1 := by omega
    have hpow : (0:ℕ) < 2^(32 - (len + lab.length) - 1) := Nat.pos_pow_of_pos _ (by norm_num)
    set m := pushBits pfx lab with hm
    set el := l.entries (pushBit m false) (len + lab.length + 1) with hel
    set er := r.entries (pushBit m true) (len + lab.length + 1) with her
    have hbl : ∀ e ∈ el, 2 * m * 2^(32 - (len + lab.length) - 1) ≤ e.1 ∧
        e.1 < (2 * m + 1) * 2^(32 - (len + lab.length) - 1) := by
      intro e he
      have := entries_bounds l (pushBit m false) (len + lab.length + 1) hwl hlen1 e he
      simpa [pushBit, hdd] using this
    have hbr : ∀ e ∈ er, (2 * m + 1) * 2^(32 - (len + lab.length) - 1) ≤ e.1 ∧
        e.1 < (2 * m + 2) * 2^(32 - (len + lab.length) - 1) := by
      intro e he
      have := entries_bounds r (pushBit m true) (len + lab.length + 1) hwr hlen1 e he
      simp only [pushBit, cond_true, hdd] at this
      constructor
      · exact this.1
      · calc e.1 < (2 * m + 1 + 1) * 2^(32 - (len + lab.length) - 1) := this.2
          _ = (2 * m + 2) * 2^(32 - (len + lab.length) - 1) := by ring_nf
    have hx : build_key_part (m * 2^(32 - (len + lab.length))) (len + lab.length) = m :=
      build_key_part_padded _ _ (by omega)
    simp only [OldMcBlocksInfo.traverse, OldMcBlocksInfo.entries, ← hel, ← her, ← hm]
    by_cases hk : (OldMcBlocksInfo.fork lab l r).aug.key = true
    · have hstep0 : prev_step req (m * 2^(32 - (len + lab.length))) (len + lab.length)
          (OldMcBlocksInfo.fork lab l r).aug none =
          (if req / 2^(32 - (len + lab.length) - 1) < 2 * m then TraverseNextStep.Stop
           else if req / 2^(32 - (len + lab.length) - 1) = 2 * m then TraverseNextStep.VisitZero
           else TraverseNextStep.VisitOneZero) := by
        simp only [prev_step, hx, hk, Bool.true_eq_false]
        rw [if_neg (by simp), if_neg hd0]
      rcases Nat.lt_trichotomy (req / 2^(32 - (len + lab.length) - 1)) (2 * m) with hy | hy | hy
      · rw [hstep0, if_pos hy]
        have hreq : req < 2 * m * 2^(32 - (len + lab.length) - 1) :=
          (Nat.div_lt_iff_lt_mul hpow).mp hy
        have hnc : ∀ e ∈ el ++ er, ¬(e.2.key = true ∧ e.1 ≤ req) := by
          intro e he
          rcases List.mem_append.mp he with he | he
          · have := (hbl e he).1
            rintro ⟨-, hle⟩
            omega
          · have h1 := (hbr e he).1
            have h2 : 2 * m * 2^(32 - (len + lab.length) - 1) ≤
                (2 * m + 1) * 2^(32 - (len + lab.length) - 1) :=
              Nat.mul_le_mul_right _ (by omega)
            rintro ⟨-, hle⟩
            omega
        rw [scan_prev_no_cand req _ hnc none]
        rfl
      · rw [hstep0, if_neg (by omega), if_pos hy]
        have hreq : req < (2 * m + 1) * 2^(32 - (len + lab.length) - 1) :=
          (Nat.div_lt_iff_lt_mul hpow).mp (by omega)
        have hnc : ∀ e ∈ er, ¬(e.2.key = true ∧ e.1 ≤ req) := by
          intro e he
          have := (hbr e he).1
          rintro ⟨-, hle⟩
          omega
        rw [List.foldl_append, scan_prev_no_cand req _ hnc]
        exact ihl (pushBit m false) (len + lab.length + 1) hwl hlen1
      · rw [hstep0, if_neg (by omega), if_neg (by omega)]
        have hcross : ∀ e1 ∈ el, ∀ e2 ∈ er, e1.1 ≤ e2.1 := by
          intro e1 h1 e2 h2
          have hu := (hbl e1 h1).2
          have hl2 := (hbr e2 h2).1
          omega
        rw [scan_prev_append req el er hcross]
        rw [ihl (pushBit m false) (len + lab.length + 1) hwl hlen1,
            ihr (pushBit m true) (len + lab.length + 1) hwr hlen1]
        rcases er.foldl (scan_prev_step req) none with _ | c
        · simp
        · simp
    · have hstep0 : prev_step req (m * 2^(32 - (len + lab.length))) (len + lab.length)
          (OldMcBlocksInfo.fork lab l r).aug none = TraverseNextStep.Stop := by
        simp only [Bool.not_eq_true] at hk
        simp only [prev_step, hk]
        rw [if_pos trivial]
      rw [hstep0]
      have hnf : ∀ e ∈ el ++ er, ¬(e.2.key = true ∧ e.1 ≤ req) := by
        intro e he
        rintro ⟨hkey, -⟩
        exact hk ((aug_key_iff (OldMcBlocksInfo.fork lab l r) pfx len).mpr
          ⟨e, by simpa [OldMcBlocksInfo.entries, ← hel, ← her, ← hm] using he, hkey⟩)
      rw [scan_prev_no_cand req _ hnf none]
      rfl


/-- The guided descent of `get_next_key_block` computes, on every well-formed
subtree, exactly what the linear scan computes. -/
theorem traverse_next_eq_scan (req : ℕ) (t : OldMcBlocksInfo) :
    ∀ pfx len, t.wfFrom len = true → len ≤ 32 →
    t.traverse (next_step req) pfx len =
      ((t.entries pfx len).foldl (scan_next_step req) none).map (fun e => e.2) := by
  induction t with
  | leaf lab v =>
    intro pfx len hwf _hlen
    simp only [OldMcBlocksInfo.wfFrom, beq_iff_eq] at hwf
    have hd : 32 - (len + lab.length) = 0 := by omega
    simp only [OldMcBlocksInfo.traverse, OldMcBlocksInfo.entries, hd, pow_zero, Nat.mul_one]
    have hx : build_key_part (pushBits pfx lab) (len + lab.length) = pushBits pfx lab := by
      simp [build_key_part, hd]
    by_cases hk : v.key = true
    · by_cases hle : req ≤ pushBits pfx lab
      · have hstep : next_step req (pushBits pfx lab) (len + lab.length)
            (OldMcBlocksInfo.leaf lab v).aug (some v) = TraverseNextStep.End v := by
          simp only [next_step, OldMcBlocksInfo.aug, KeyExtBlkRef.aug, hx, hd]
          rw [if_neg (by simp [hk]), if_pos trivial, if_pos hle]
        rw [hstep]
        simp only [List.foldl_cons, List.foldl_nil, scan_next_step]
        rw [if_pos (⟨hk, hle⟩ : _ ∧ _)]
        rfl
      · have hstep : next_step req (pushBits pfx lab) (len + lab.length)
            (OldMcBlocksInfo.leaf lab v).aug (some v) = TraverseNextStep.Stop := by
          simp only [next_step, OldMcBlocksInfo.aug, KeyExtBlkRef.aug, hx, hd]
          rw [if_neg (by simp [hk]), if_pos trivial, if_neg hle]
        rw [hstep]
        simp only [List.foldl_cons, List.foldl_nil, scan_next_step]
        rw [if_neg (fun h => hle h.2)]
        rfl
    · simp only [Bool.not_eq_true] at hk
      have hstep : next_step req (pushBits pfx lab) (len + lab.length)
          (OldMcBlocksInfo.leaf lab v).aug (some v) = TraverseNextStep.Stop := by
        simp only [next_step, OldMcBlocksInfo.aug, KeyExtBlkRef.aug, hk]
        rw [if_pos trivial]
      rw [hstep]
      simp only [List.foldl_cons, List.foldl_nil, scan_next_step]
      rw [if_neg (by simp [hk])]
      rfl
  | fork lab l r ihl ihr =>
    intro pfx len hwf hlen
    simp only [OldMcBlocksInfo.wfFrom, Bool.and_eq_true, decide_eq_true_eq] at hwf
    obtain ⟨⟨hlt, hwl⟩, hwr⟩ := hwf
    have hlen1 : len + lab.length + 1 ≤ 32 := by omega
    have hd0 : 32 - (len + lab.length) ≠ 0 := by omega
    have hdd : 32 - (len + lab.length + 1) = 32 - (len + lab.length) - 1 := by omega
    have hpow : (0:ℕ) < 2^(32 - (len + lab.length) - 1) := Nat.pos_pow_of_pos _ (by norm_num)
    set m := pushBits pfx lab with hm
    set el := l.entries (pushBit m false) (len + lab.length + 1) with hel
    set er := r.entries (pushBit m true) (len + lab.length + 1) with her
    have hbl : ∀ e ∈ el, 2 * m * 2^(32 - (len + lab.length) - 1) ≤ e.1 ∧
        e.1 < (2 * m + 1) * 2^(32 - (len + lab.length) - 1) := by
      intro e he
      have := entries_bounds l (pushBit m false) (len + lab.length + 1) hwl hlen1 e he
      simpa [pushBit, hdd] using this
    have hbr : ∀ e ∈ er, (2 * m + 1) * 2^(32 - (len + lab.length) - 1) ≤ e.1 ∧
        e.1 < (2 * m + 2) * 2^(32 - (len + lab.length) - 1) := by
      intro e he
      have := entries_bounds r (pushBit m true) (len + lab.length + 1) hwr hlen1 e he
      simp only [pushBit, cond_true, hdd] at this
      constructor
      · exact this.1
      · calc e.1 < (2 * m + 1 + 1) * 2^(32 - (len + lab.length) - 1) := this.2
          _ = (2 * m + 2) * 2^(32 - (len + lab.length) - 1) := by ring_nf
    have hx : build_key_part (m * 2^(32 - (len + lab.length))) (len + lab.length) = m :=
      build_key_part_padded _ _ (by omega)
    simp only [OldMcBlocksInfo.traverse, OldMcBlocksInfo.entries, ← hel, ← her, ← hm]
    by_cases hk : (OldMcBlocksInfo.fork lab l r).aug.key = true
    · have hstep0 : next_step req (m * 2^(32 - (len + lab.length))) (len + lab.length)
          (OldMcBlocksInfo.fork lab l r).aug none =
          (if 2 * m + 1 < req / 2^(32 - (len + lab.length) - 1) then TraverseNextStep.Stop
           else if req / 2^(32 - (len + lab.length) - 1) = 2 * m + 1 then TraverseNextStep.VisitOne
           else TraverseNextStep.VisitZeroOne) := by
        simp only [next_step, hx, hk, Bool.true_eq_false]
        rw [if_neg (by simp), if_neg hd0]
      rcases Nat.lt_trichotomy (req / 2^(32 - (len + lab.length) - 1)) (2 * m + 1) with hy | hy | hy
      · rw [hstep0, if_neg (by omega), if_neg (by omega)]
        have hcross : ∀ e1 ∈ el, ∀ e2 ∈ er, e1.1 ≤ e2.1 := by
          intro e1 h1 e2 h2
          have hu := (hbl e1 h1).2
          have hl2 := (hbr e2 h2).1
          omega
        rw [scan_next_append req el er hcross]
        rw [ihl (pushBit m false) (len + lab.length + 1) hwl hlen1,
            ihr (pushBit m true) (len + lab.length + 1) hwr hlen1]
        rcases el.foldl (scan_next_step req) none with _ | c
        · simp
        · simp
      · rw [hstep0, if_neg (by omega), if_pos hy]
        have hreq : (2 * m + 1) * 2^(32 - (len + lab.length) - 1) ≤ req := by
          have := (Nat.le_div_iff_mul_le hpow).mp (le_of_eq hy.symm)
          omega
        have hnc : ∀ e ∈ el, ¬(e.2.key = true ∧ req ≤ e.1) := by
          intro e he
          have := (hbl e he).2
          rintro ⟨-, hle⟩
          omega
        rw [List.foldl_append, scan_next_no_cand req _ hnc]
        exact ihr (pushBit m true) (len + lab.length + 1) hwr hlen1
      · rw [hstep0, if_pos hy]
        have hreq : (2 * m + 2) * 2^(32 - (len + lab.length) - 1) ≤ req := by
          have : 2 * m + 2 ≤ req / 2^(32 - (len + lab.length) - 1) := by omega
          exact (Nat.le_div_iff_mul_le hpow).mp this
        have hnc : ∀ e ∈ el ++ er, ¬(e.2.key = true ∧ req ≤ e.1) := by
          intro e he
          rcases List.mem_append.mp he with he | he
          · have h1 := (hbl e he).2
            have h2 : (2 * m + 1) * 2^(32 - (len + lab.length) - 1) ≤
                (2 * m + 2) * 2^(32 - (len + lab.length) - 1) :=
              Nat.mul_le_mul_right _ (by omega)
            rintro ⟨-, hle⟩
            omega
          · have h1 := (hbr e he).2
            rintro ⟨-, hle⟩
            omega
        rw [scan_next_no_cand req _ hnc none]
        rfl
    · have hstep0 : next_step req (m * 2^(32 - (len + lab.length))) (len + lab.length)
          (OldMcBlocksInfo.fork lab l r).aug none = TraverseNextStep.Stop := by
        simp only [Bool.not_eq_true] at hk
        simp only [next_step, hk]
        rw [if_pos trivial]
      rw [hstep0]
      have hnf : ∀ e ∈ el ++ er, ¬(e.2.key = true ∧ req ≤ e.1) := by
        intro e he
        rintro ⟨hkey, -⟩
        exact hk ((aug_key_iff (OldMcBlocksInfo.fork lab l r) pfx len).mpr
          ⟨e, by simpa [OldMcBlocksInfo.entries, ← hel, ← her, ← hm] using he, hkey⟩)
      rw [scan_next_no_cand req _ hnf none]
      rfl

/-- C1.  For every well-formed `OldMcBlocksInfo` dictionary and every
`req_seqno` in `[0, 2^32)`, `get_prev_key_block(req_seqno)` returns exactly
the result of a brute-force linear scan: the key-flagged entry with maximal
`seq_no ≤ req_seqno`, or `None` when no such entry exists. -/
theorem get_prev_key_block_eq_linear_scan (t : OldMcBlocksInfo)
    (hwf : t.wfFrom 0 = true) (req_seqno : ℕ) (hreq : req_seqno < 2^32) :
    get_prev_key_block t req_seqno = prev_key_block_linear_scan t req_seqno := by
  unfold get_prev_key_block prev_key_block_linear_scan
  rw [traverse_prev_eq_scan req_seqno t 0 0 hwf (by norm_num)]
  rcases (t.entries 0 0).foldl (scan_prev_step req_seqno) none with _ | e
  · rfl
  · rfl

/-- C2.  For every well-formed `OldMcBlocksInfo` dictionary and every
`req_seqno` in `[0, 2^32)`, `get_next_key_block(req_seqno)` returns exactly
the result of a brute-force linear scan: the key-flagged entry with minimal
`seq_no ≥ req_seqno`, or `None` when no such entry exists. -/
theorem get_next_key_block_eq_linear_scan (t : OldMcBlocksInfo)
    (hwf : t.wfFrom 0 = true) (req_seqno : ℕ) (hreq : req_seqno < 2^32) :
    get_next_key_block t req_seqno = next_key_block_linear_scan t req_seqno := by
  unfold get_next_key_block next_key_block_linear_scan
  rw [traverse_next_eq_scan req_seqno t 0 0 hwf (by norm_num)]
  rcases (t.entries 0 0).foldl (scan_next_step req_seqno) none with _ | e
  · rfl
  · rfl

/-- A concrete two-entry dictionary (key blocks at seq_no `0` and
`2^32 - 1`). -/
def sampleKeyBlockDict : OldMcBlocksInfo :=
  .fork []
    (.leaf (List.replicate 31 false) ⟨true, ⟨10, 0, ⟨1⟩, ⟨2⟩⟩⟩)
    (.leaf (List.replicate 31 true) ⟨true, ⟨20, 4294967295, ⟨3⟩, ⟨4⟩⟩⟩)

/-- Witness for C1 at a concrete dictionary and request. -/
theorem get_prev_key_block_eq_linear_scan_witness :
    sampleKeyBlockDict.wfFrom 0 = true ∧ (7:ℕ) < 2^32 ∧
    get_prev_key_block sampleKeyBlockDict 7 = prev_key_block_linear_scan sampleKeyBlockDict 7 := by
  exact ⟨by decide, by decide,
    get_prev_key_block_eq_linear_scan sampleKeyBlockDict (by decide) 7 (by decide)⟩

/-- Witness for C2 at a concrete dictionary and request. -/
theorem get_next_key_block_eq_linear_scan_witness :
    sampleKeyBlockDict.wfFrom 0 = true ∧ (7:ℕ) < 2^32 ∧
    get_next_key_block sampleKeyBlockDict 7 = next_key_block_linear_scan sampleKeyBlockDict 7 := by
  exact ⟨by decide, by decide,
    get_next_key_block_eq_linear_scan sampleKeyBlockDict (by decide) 7 (by decide)⟩



/-! ### Shard topology (`ShardHashes`, master.rs 36-306) -/

/-- Modelled from the spec: the masterchain workchain id. -/
def masterchain_id : Int := -1

/-- Modelled from the spec: a shard ident is a workchain id plus a bit-prefix
of length at most 60 (the source packs the prefix into a `u64` with a trailing
terminator bit; we carry the active bits directly). -/
structure ShardIdent where
  workchain_id : Int
  bits : List Bool
deriving DecidableEq

/-- Modelled from the spec: a shard is masterchain iff its workchain id is the
masterchain id. -/
def ShardIdent.is_masterchain (s : ShardIdent) : Bool := s.workchain_id == masterchain_id

/-- Modelled from the spec: splitting appends one bit to the prefix, producing
the two children; it fails when the prefix is already at the maximal length
60. -/
def ShardIdent.split (s : ShardIdent) : Except String (ShardIdent × ShardIdent) :=
  if 60 ≤ s.bits.length then .error "cannot split shard"
  else .ok (⟨s.workchain_id, s.bits ++ [false]⟩, ⟨s.workchain_id, s.bits ++ [true]⟩)

/-- Modelled from the spec: merging drops the last prefix bit, producing the
parent; it fails on the full (empty-prefix) shard. -/
def ShardIdent.merge (s : ShardIdent) : Except String ShardIdent :=
  if s.bits = [] then .error "cannot merge the full shard"
  else .ok ⟨s.workchain_id, s.bits.dropLast⟩

/-- Modelled from the spec ("one is ancestor of another iff its prefix (minus
terminator) is a bit-prefix of the other's"); as in the source, a shard is an
ancestor of itself. -/
def ShardIdent.is_ancestor_for (a b : ShardIdent) : Bool :=
  a.workchain_id == b.workchain_id && a.bits.isPrefixOf b.bits

/-- Modelled from the spec: `a` is the parent of `b` iff `b` extends `a` by
exactly one bit in the same workchain. -/
def ShardIdent.is_parent_for (a b : ShardIdent) : Bool :=
  a.workchain_id == b.workchain_id && (b.bits.length == a.bits.length + 1) &&
    a.bits.isPrefixOf b.bits

/-- Modelled from the spec: the left ancestor mask addresses the leftmost
descendant slot of the shard (its prefix padded with zero bits), so that
`find` either stops at a proper ancestor or descends into the left child. -/
def ShardIdent.left_ancestor_mask (s : ShardIdent) : ShardIdent :=
  ⟨s.workchain_id, s.bits ++ List.replicate (63 - s.bits.length) false⟩

/-- Modelled from the spec: the prefix padded with one bits, mirroring
`left_ancestor_mask`. -/
def ShardIdent.right_ancestor_mask (s : ShardIdent) : ShardIdent :=
  ⟨s.workchain_id, s.bits ++ List.replicate (63 - s.bits.length) true⟩

/-- Modelled from the spec: the bit key used for `BinTree` descent
(`shard_key(false)`: prefix bits without the terminator). -/
def ShardIdent.shard_key (s : ShardIdent) : List Bool := s.bits

/-- Modelled from the spec: the spec names no failure condition for workchain
ids beyond the masterchain check performed separately by
`calc_shard_cc_seqno`, so the check is modelled as always succeeding. -/
def ShardIdent.check_workchain_id (_wc : Int) : Except String Unit := .ok ()

/-- `BinTree` (external `bintree` module), modelled from the spec: a binary
trie whose leaves partition the key space. -/
inductive BinTree (α : Type) where
  | leaf (v : α)
  | fork (l r : BinTree α)
deriving DecidableEq

/-- Modelled from the spec: `BinTree::find` descends following the key bits
until a leaf is reached (returning the matched prefix and value) or returns
`none` when the key is exhausted at a fork. -/
def BinTree.find {α : Type} : BinTree α → List Bool → Option (List Bool × α)
  | .leaf v, _ => some ([], v)
  | .fork _ _, [] => none
  | .fork l _, false :: bs => (BinTree.find l bs).map (fun p => (false :: p.1, p.2))
  | .fork _ r, true :: bs => (BinTree.find r bs).map (fun p => (true :: p.1, p.2))

/-- Modelled from the spec: `BinTree::iterate` order — every `(prefix, value)`
leaf pair, left before right. -/
def BinTree.toList {α : Type} : BinTree α → List (List Bool × α)
  | .leaf v => [([], v)]
  | .fork l r =>
    (BinTree.toList l).map (fun p => (false :: p.1, p.2)) ++
    (BinTree.toList r).map (fun p => (true :: p.1, p.2))

/-- Map a function over all leaf values. -/
def BinTree.mapVals {α β : Type} (f : α → β) : BinTree α → BinTree β
  | .leaf v => .leaf (f v)
  | .fork l r => .fork (l.mapVals f) (r.mapVals f)

/-- Modelled from the spec: opaque external value types used by `ShardDescr`
(currency totals, copyleft-reward dictionaries, proof chains, validator
statistics, message-pack ids, mesh queue dictionaries).  Only equality,
emptiness of the dictionary-like ones, and an abstract wire codec are visible
to the verified code. -/
structure CurrencyCollection where
  val : ℕ
deriving DecidableEq

structure CopyleftRewards where
  val : ℕ
deriving DecidableEq

/-- A `CopyleftRewards` dictionary is empty iff it is the default value. -/
def CopyleftRewards.is_empty (x : CopyleftRewards) : Bool := x.val == 0

structure ProofChain where
  val : ℕ
deriving DecidableEq

structure ValidatorsStat where
  val : ℕ
deriving DecidableEq

/-- A `ValidatorsStat` is empty iff it is the default value. -/
def ValidatorsStat.is_empty (x : ValidatorsStat) : Bool := x.val == 0

structure MsgPackId where
  val : ℕ
deriving DecidableEq

structure MeshOutDescr where
  val : ℕ
deriving DecidableEq

/-- A `MeshOutDescr` dictionary is empty iff it is the default value. -/
def MeshOutDescr.is_empty (x : MeshOutDescr) : Bool := x.val == 0

/-- `FutureSplitMerge` (master.rs 1343-1355). -/
inductive FutureSplitMerge where
  | None
  | Split (split_utime : ℕ) (interval : ℕ)
  | Merge (merge_utime : ℕ) (interval : ℕ)
deriving DecidableEq

/-- `CollatorRange` (master.rs 1403-1409); `mempool` is the list of `u16`
mempool node indices. -/
structure CollatorRange where
  collator : ℕ
  mempool : List ℕ
  start : ℕ
  finish : ℕ
deriving DecidableEq

/-- `ShardCollators` (master.rs 1474-1483). -/
structure ShardCollators where
  prev : CollatorRange
  prev2 : Option CollatorRange
  current : CollatorRange
  next : CollatorRange
  next2 : Option CollatorRange
  updated_at : ℕ
  stat : ValidatorsStat
deriving DecidableEq

/-- `MsgPackProcessingInfo` (master.rs 1766-1771). -/
structure MsgPackProcessingInfo where
  round : ℕ
  last_id : MsgPackId
  last_partially_included : Option UInt256
deriving DecidableEq

/-- `ShardDescr` (master.rs 1801-1828), with machine integers as `ℕ`. -/
structure ShardDescr where
  seq_no : ℕ
  reg_mc_seqno : ℕ
  start_lt : ℕ
  end_lt : ℕ
  root_hash : UInt256
  file_hash : UInt256
  before_split : Bool
  before_merge : Bool
  want_split : Bool
  want_merge : Bool
  nx_cc_updated : Bool
  flags : ℕ
  next_catchain_seqno : ℕ
  next_validator_shard : ℕ
  min_ref_mc_seqno : ℕ
  gen_utime : ℕ
  split_merge_at : FutureSplitMerge
  fees_collected : CurrencyCollection
  funds_created : CurrencyCollection
  copyleft_rewards : CopyleftRewards
  proof_chain : Option ProofChain
  collators : Option ShardCollators
  mesh_msg_queues : MeshOutDescr
  pack_info : Option MsgPackProcessingInfo
deriving DecidableEq

/-- The all-zero `ShardDescr` (the `Default` of the source). -/
def ShardDescr.zero : ShardDescr :=
  ⟨0, 0, 0, 0, ⟨0⟩, ⟨0⟩, false, false, false, false, false, 0, 0, 0, 0, 0,
   .None, ⟨0⟩, ⟨0⟩, ⟨0⟩, none, none, ⟨0⟩, none⟩

/-- Modelled from the spec: `BlockIdExt` — shard, seq_no and the two hashes. -/
structure BlockIdExt where
  shard_id : ShardIdent
  seq_no : ℕ
  root_hash : UInt256
  file_hash : UInt256
deriving DecidableEq

/-- `McShardRecord` (master.rs 308-312). -/
structure McShardRecord where
  descr : ShardDescr
  block_id : BlockIdExt
deriving DecidableEq

/-- The block id built from a shard and its descriptor (as in
`McShardRecord::from_shard_descr` and `get_new_shards`). -/
def block_id_of (shard : ShardIdent) (descr : ShardDescr) : BlockIdExt :=
  ⟨shard, descr.seq_no, descr.root_hash, descr.file_hash⟩

/-- `McShardRecord::from_shard_descr` (master.rs 315-318). -/
def McShardRecord.from_shard_descr (shard : ShardIdent) (descr : ShardDescr) : McShardRecord :=
  ⟨descr, block_id_of shard descr⟩

/-- `McShardRecord::shard` (master.rs 364). -/
def McShardRecord.shard (r : McShardRecord) : ShardIdent := r.block_id.shard_id

/-- `ShardHashes` is `HashmapE 32 (InRefValue (BinTree ShardDescr))`
(master.rs 40): modelled from the spec as an association list from workchain
id to the per-workchain trie (workchain keys are distinct in the real
dictionary; theorems that need it take a `Nodup` hypothesis). -/
abbrev ShardHashes := List (Int × BinTree ShardDescr)

/-- Dictionary lookup of a workchain's shard trie. -/
def shardhashes_get (sh : ShardHashes) (wc : Int) : Option (BinTree ShardDescr) :=
  (sh.find? (fun p => p.1 == wc)).map (fun p => p.2)

/-- `ShardHashes::find_shard` (master.rs 130-139). -/
def find_shard (sh : ShardHashes) (shard : ShardIdent) : Option McShardRecord :=
  match shardhashes_get sh shard.workchain_id with
  | none => none
  | some bt =>
    match bt.find shard.shard_key with
    | none => none
    | some kd => some (McShardRecord.from_shard_descr ⟨shard.workchain_id, kd.1⟩ kd.2)

/-- `ShardHashes::calc_shard_cc_seqno` (master.rs 196-219). -/
def calc_shard_cc_seqno (sh : ShardHashes) (shard : ShardIdent) : Except String ℕ :=
  if shard.is_masterchain then .error "given shard cannot be masterchain"
  else
    match ShardIdent.check_workchain_id shard.workchain_id with
    | .error e => .error e
    | .ok _ =>
      match find_shard sh shard.left_ancestor_mask with
      | none => .error "cannot find shard1"
      | some shard1 =>
        if shard1.shard.is_ancestor_for shard = true then
          .ok shard1.descr.next_catchain_seqno
        else if shard.is_parent_for shard1.shard = false then .error "invalid shard1"
        else
          match find_shard sh shard.right_ancestor_mask with
          | none => .error "cannot find shard2"
          | some shard2 =>
            if shard.is_parent_for shard2.shard = false then .error "invalid shard2"
            else .ok (max shard1.descr.next_catchain_seqno shard2.descr.next_catchain_seqno + 1)

/-- `ShardHashes::iterate_shards` order (master.rs 104-112): every
`(shard_ident, descr)` leaf across all workchains. -/
def all_shards (sh : ShardHashes) : List (ShardIdent × ShardDescr) :=
  (sh.map (fun p => p.2.toList.map (fun q => ((⟨p.1, q.1⟩ : ShardIdent), q.2)))).flatten

/-- The `HashMap<ShardIdent, Vec<BlockIdExt>>` built by `get_new_shards`,
modelled as an association list observed through `mapLookup`. -/
abbrev NewShards := List (ShardIdent × List BlockIdExt)

/-- `HashMap::insert` (replace an existing binding or add a new one). -/
def mapInsert : NewShards → ShardIdent → List BlockIdExt → NewShards
  | [], k, v => [(k, v)]
  | p :: m, k, v => if p.1 = k then (k, v) :: m else p :: mapInsert m k v

/-- `HashMap::entry(k).or_insert_with(Vec::new).push(b)`. -/
def mapPush : NewShards → ShardIdent → BlockIdExt → NewShards
  | [], k, b => [(k, [b])]
  | p :: m, k, b => if p.1 = k then (p.1, p.2 ++ [b]) :: m else p :: mapPush m k b

/-- `HashMap` lookup. -/
def mapLookup : NewShards → ShardIdent → Option (List BlockIdExt)
  | [], _ => none
  | p :: m, k => if p.1 = k then some p.2 else mapLookup m k

/-- The body of the `iterate_shards` closure in `get_new_shards`
(master.rs 175-193): two entries for a `before_split` leaf, a push onto the
parent's entry for a `before_merge` leaf, one entry otherwise. -/
def new_shards_step (m : NewShards) (e : ShardIdent × ShardDescr) : Except String NewShards :=
  let bid := block_id_of e.1 e.2
  if e.2.before_split then
    match e.1.split with
    | .error msg => .error msg
    | .ok lr => .ok (mapInsert (mapInsert m lr.1 [bid]) lr.2 [bid])
  else if e.2.before_merge then
    match e.1.merge with
    | .error msg => .error msg
    | .ok p => .ok (mapPush m p bid)
  else .ok (mapInsert m e.1 [bid])

/-- `ShardHashes::get_new_shards` (master.rs 173-195). -/
def get_new_shards (sh : ShardHashes) : Except String NewShards :=
  (all_shards sh).foldlM new_shards_step []

/-- The spec's description of which leaf contributes to which key of the new
shard map: a `before_split` leaf to its two children, a `before_merge` leaf
to its parent, any other leaf to its own shard. -/
def contributes (s : ShardIdent) (e : ShardIdent × ShardDescr) : Bool :=
  if e.2.before_split then
    ((⟨e.1.workchain_id, e.1.bits ++ [false]⟩ : ShardIdent) == s) ||
    ((⟨e.1.workchain_id, e.1.bits ++ [true]⟩ : ShardIdent) == s)
  else if e.2.before_merge then
    (!e.1.bits.isEmpty) && ((⟨e.1.workchain_id, e.1.bits.dropLast⟩ : ShardIdent) == s)
  else e.1 == s

/-- The block ids of all leaves contributing to key `s`, in iteration
order. -/
def contribs (s : ShardIdent) (L : List (ShardIdent × ShardDescr)) : List BlockIdExt :=
  (L.filter (contributes s)).map (fun e => block_id_of e.1 e.2)

/-- The spec's expected new-shard map: at each key, the block ids of its
contributing leaves (no entry when there are none). -/
def new_shards_spec (sh : ShardHashes) (s : ShardIdent) : Option (List BlockIdExt) :=
  match contribs s (all_shards sh) with
  | [] => none
  | l => some l

/-- A leaf contributing through the merge branch (no `before_split`,
`before_merge` set). -/
def merge_kind (e : ShardIdent × ShardDescr) : Prop :=
  e.2.before_split = false ∧ e.2.before_merge = true

/-- Two leaves may contribute to a common key only when both do so through
the merge branch (they are merging siblings); this holds for the leaves of
any `ShardHashes` because leaf prefixes are pairwise incomparable. -/
def good_pair (e1 e2 : ShardIdent × ShardDescr) : Prop :=
  ∀ s, contributes s e1 = true → contributes s e2 = true → merge_kind e1 ∧ merge_kind e2

/-- Clear `before_merge` on a descriptor that has `before_split` set. -/
def clear_merge_if_split (d : ShardDescr) : ShardDescr :=
  if d.before_split then { d with before_merge := false } else d


/-- Lookup after `insert`. -/
theorem mapLookup_insert (m : NewShards) (k : ShardIdent) (v : List BlockIdExt)
    (s : ShardIdent) :
    mapLookup (mapInsert m k v) s = if k = s then some v else mapLookup m s := by
  induction m with
  | nil => rfl
  | cons p m ih =>
    by_cases hpk : p.1 = k
    · simp only [mapInsert, if_pos hpk, mapLookup]
      by_cases hks : k = s
      · rw [if_pos hks, if_pos hks]
      · rw [if_neg hks, if_neg hks, if_neg (by rw [hpk]; exact hks)]
    · simp only [mapInsert, if_neg hpk, mapLookup]
      by_cases hps : p.1 = s
      · rw [if_pos hps, if_pos hps, if_neg (by rw [← hps]; exact fun h => hpk h.symm)]
      · rw [if_neg hps, if_neg hps, ih]

/-- Lookup after `entry(..).push`. -/
theorem mapLookup_push (m : NewShards) (k : ShardIdent) (b : BlockIdExt)
    (s : ShardIdent) :
    mapLookup (mapPush m k b) s =
      if k = s then some ((mapLookup m k).getD [] ++ [b]) else mapLookup m s := by
  induction m with
  | nil =>
    simp only [mapPush, mapLookup]
    by_cases hks : k = s
    · rw [if_pos hks, if_pos hks]; rfl
    · rw [if_neg hks, if_neg hks]
  | cons p m ih =>
    by_cases hpk : p.1 = k
    · simp only [mapPush, if_pos hpk, mapLookup, if_pos hpk]
      by_cases hks : k = s
      · rw [if_pos (hpk.trans hks), if_pos hks]; rfl
      · rw [if_neg (by rw [hpk]; exact hks), if_neg hks, if_neg (by rw [hpk]; exact hks)]
    · simp only [mapPush, if_neg hpk, mapLookup, if_neg hpk]
      by_cases hps : p.1 = s
      · rw [if_pos hps, if_pos hps,
          if_neg (by rw [← hps]; exact fun h => hpk h.symm)]
      · rw [if_neg hps, if_neg hps, ih]

/-- `toList` commutes with mapping leaf values. -/
theorem toList_mapVals {α β : Type} (f : α → β) (bt : BinTree α) :
    (bt.mapVals f).toList = bt.toList.map (fun p => (p.1, f p.2)) := by
  induction bt with
  | leaf v => rfl
  | fork l r ihl ihr =>
    simp only [BinTree.mapVals, BinTree.toList, ihl, ihr, List.map_append, List.map_map]
    rfl

/-- `all_shards` commutes with clearing merge flags on split leaves. -/
theorem all_shards_clear (sh : ShardHashes) :
    all_shards (sh.map (fun p => (p.1, p.2.mapVals clear_merge_if_split))) =
      (all_shards sh).map (fun e => (e.1, clear_merge_if_split e.2)) := by
  induction sh with
  | nil => rfl
  | cons p tl ih =>
    simp only [List.map_cons, all_shards] at ih ⊢
    rw [List.flatten_cons, List.flatten_cons, List.map_append, ← ih]
    congr 1
    simp only [toList_mapVals, List.map_map]
    rfl

/-- One fold step is unchanged by clearing `before_merge` on a
`before_split` leaf. -/
theorem new_shards_step_clear (m : NewShards) (e : ShardIdent × ShardDescr) :
    new_shards_step m (e.1, clear_merge_if_split e.2) = new_shards_step m e := by
  unfold new_shards_step clear_merge_if_split block_id_of
  by_cases h : e.2.before_split = true
  · simp [h]
  · simp only [Bool.not_eq_true] at h
    simp [h]

/-- The whole fold is unchanged by clearing `before_merge` on `before_split`
leaves. -/
theorem foldlM_new_shards_clear (L : List (ShardIdent × ShardDescr)) :
    ∀ m0, (L.map (fun e => (e.1, clear_merge_if_split e.2))).foldlM new_shards_step m0 =
      L.foldlM new_shards_step m0 := by
  induction L with
  | nil => intro m0; rfl
  | cons e tl ih =>
    intro m0
    simp only [List.map_cons, List.foldlM_cons, new_shards_step_clear]
    rcases h : new_shards_step m0 e with msg | m1
    · rfl
    · exact ih m1

/-- C9.  `get_new_shards` ignores `before_merge` on every leaf that has
`before_split` set: the result is unchanged when `before_merge` is cleared on
all such leaves (the split branch takes priority). -/
theorem get_new_shards_split_priority (sh : ShardHashes) :
    get_new_shards sh =
      get_new_shards (sh.map (fun p => (p.1, p.2.mapVals clear_merge_if_split))) := by
  unfold get_new_shards
  rw [all_shards_clear, foldlM_new_shards_clear]


/-- C6 (amended).  `calc_shard_cc_seqno` succeeds exactly when the shard is
not masterchain and either the record located through the left ancestor mask
is an ancestor of the query shard (possibly the shard itself), returning its
`next_catchain_seqno` unchanged, or the query shard is the parent of both
located records, returning the maximum of their catchain seqnos plus one; in
every other case — masterchain shard, absent workchain, failed lookup or
failed parent check — it fails. -/
theorem calc_shard_cc_seqno_characterization (sh : ShardHashes) (shard : ShardIdent)
    (n : ℕ) :
    calc_shard_cc_seqno sh shard = .ok n ↔
      (shard.is_masterchain = false ∧
       ∃ r1, find_shard sh shard.left_ancestor_mask = some r1 ∧
         ((r1.shard.is_ancestor_for shard = true ∧ n = r1.descr.next_catchain_seqno) ∨
          (r1.shard.is_ancestor_for shard = false ∧ shard.is_parent_for r1.shard = true ∧
           ∃ r2, find_shard sh shard.right_ancestor_mask = some r2 ∧
             shard.is_parent_for r2.shard = true ∧
             n = max r1.descr.next_catchain_seqno r2.descr.next_catchain_seqno + 1))) := by
  unfold calc_shard_cc_seqno ShardIdent.check_workchain_id
  rcases hm : shard.is_masterchain with _ | _
  · rcases h1 : find_shard sh shard.left_ancestor_mask with _ | r1
    · simp [hm, h1]
    · rcases ha : r1.shard.is_ancestor_for shard with _ | _
      · rcases hp1 : shard.is_parent_for r1.shard with _ | _
        · simp [hm, h1, ha, hp1]
        · rcases h2 : find_shard sh shard.right_ancestor_mask with _ | r2
          · simp [hm, h1, ha, hp1, h2]
          · rcases hp2 : shard.is_parent_for r2.shard with _ | _
            · simp [hm, h1, ha, hp1, h2, hp2]
            · simp only [hm, h1, ha, hp1, h2, hp2]
              simp [ha, hp1, hp2]
              exact eq_comm
      · simp only [hm, h1, ha]
        simp [ha]
        exact eq_comm
  · simp [hm]


/-- Decidable equality of `Except` results, for concrete evaluation. -/
instance exceptDecEq {e a : Type} [DecidableEq e] [DecidableEq a] :
    DecidableEq (Except e a) := fun x y =>
  match x, y with
  | .ok v, .ok w =>
    if h : v = w then isTrue (by rw [h])
    else isFalse (by intro hh; cases hh; exact h rfl)
  | .error v, .error w =>
    if h : v = w then isTrue (by rw [h])
    else isFalse (by intro hh; cases hh; exact h rfl)
  | .ok _, .error _ => isFalse (by intro hh; cases hh)
  | .error _, .ok _ => isFalse (by intro hh; cases hh)

/-- A workchain-0 state with two sibling shards `0` and `1` whose catchain
seqnos are 7 and 9. -/
def sampleTwoShards : ShardHashes :=
  [(0, .fork (.leaf { ShardDescr.zero with next_catchain_seqno := 7 })
             (.leaf { ShardDescr.zero with next_catchain_seqno := 9 }))]

/-- C6 counterexample.  On `sampleTwoShards`, querying shard `0:[0]` succeeds
with that shard's own catchain seqno: the record located through the left
ancestor mask is the query shard itself — not a strict ancestor of it, and
the query shard is not its parent — yet `calc_shard_cc_seqno` does not fail,
because the ancestor test of the source includes equality. -/
theorem calc_shard_cc_seqno_nonstrict_cex :
    calc_shard_cc_seqno sampleTwoShards ⟨0, [false]⟩ = .ok 7 ∧
    (find_shard sampleTwoShards (ShardIdent.left_ancestor_mask ⟨0, [false]⟩)).map
        (fun r => r.shard) = some ⟨0, [false]⟩ ∧
    ShardIdent.is_parent_for (⟨0, [false]⟩ : ShardIdent)
      (⟨0, [false]⟩ : ShardIdent) = false := by
  refine ⟨by decide, by decide, by decide⟩


/-- Unfold one step of a successful `get_new_shards` fold. -/
theorem foldlM_new_shards_cons_ok (e : ShardIdent × ShardDescr)
    (tl : List (ShardIdent × ShardDescr)) (m0 m : NewShards)
    (h : (e :: tl).foldlM new_shards_step m0 = .ok m) :
    ∃ m1, new_shards_step m0 e = .ok m1 ∧ tl.foldlM new_shards_step m1 = .ok m := by
  rw [List.foldlM_cons] at h
  rcases hstep : new_shards_step m0 e with msg | m1
  · rw [hstep] at h
    exact Except.noConfusion h
  · rw [hstep] at h
    exact ⟨m1, rfl, h⟩

/-- What one leaf does to the accumulated map, observed through lookups. -/
theorem step_lookup (m0 : NewShards) (e : ShardIdent × ShardDescr) (m1 : NewShards)
    (h : new_shards_step m0 e = .ok m1) (s : ShardIdent) :
    (contributes s e = false → mapLookup m1 s = mapLookup m0 s) ∧
    (contributes s e = true → merge_kind e →
       mapLookup m1 s = some ((mapLookup m0 s).getD [] ++ [block_id_of e.1 e.2])) ∧
    (contributes s e = true → ¬ merge_kind e →
       mapLookup m1 s = some [block_id_of e.1 e.2]) := by
  rcases hsp : e.2.before_split with _ | _
  · rcases hmg : e.2.before_merge with _ | _
    · -- plain leaf
      simp only [new_shards_step, hsp, hmg, Bool.false_eq_true, if_false,
        Except.ok.injEq] at h
      subst h
      simp only [contributes, hsp, hmg, Bool.false_eq_true, if_false]
      refine ⟨?_, ?_, ?_⟩
      · intro hc
        rw [mapLookup_insert, if_neg ?_]
        intro heq
        rw [heq] at hc
        simp at hc
      · intro _ hk
        exact absurd hk.2 (by rw [hmg]; simp)
      · intro hc _
        have he1 : e.1 = s := by simpa using hc
        rw [mapLookup_insert, if_pos he1]
    · -- merge leaf
      simp only [new_shards_step, hsp, hmg, Bool.false_eq_true, if_false, if_true] at h
      rcases hmrg : e.1.merge with msg | p
      · rw [hmrg] at h; exact Except.noConfusion h
      · rw [hmrg] at h
        simp only [Except.ok.injEq] at h
        subst h
        have hne : e.1.bits ≠ [] := by
          intro hb
          unfold ShardIdent.merge at hmrg
          rw [if_pos hb] at hmrg
          exact Except.noConfusion hmrg
        have hp : p = (⟨e.1.workchain_id, e.1.bits.dropLast⟩ : ShardIdent) := by
          unfold ShardIdent.merge at hmrg
          rw [if_neg hne] at hmrg
          exact ((Except.ok.injEq _ _).mp hmrg).symm
        have hie : e.1.bits.isEmpty = false := by
          cases hb : e.1.bits with
          | nil => exact absurd hb hne
          | cons x xs => rfl
        have hcon : contributes s e =
            ((⟨e.1.workchain_id, e.1.bits.dropLast⟩ : ShardIdent) == s) := by
          simp only [contributes, hsp, hmg, Bool.false_eq_true, if_false, if_true, hie]
          rfl
        refine ⟨?_, ?_, ?_⟩
        · intro hc
          rw [hcon] at hc
          rw [mapLookup_push, if_neg ?_]
          intro heq
          rw [hp] at heq
          rw [heq] at hc
          simp at hc
        · intro hc _
          rw [hcon] at hc
          have hps : p = s := by rw [hp]; exact eq_of_beq hc
          rw [mapLookup_push, if_pos hps, hps]
        · intro _ hk
          exact absurd ⟨hsp, hmg⟩ hk
  · -- split leaf
    simp only [new_shards_step, hsp, if_true] at h
    rcases hspl : e.1.split with msg | lr
    · rw [hspl] at h; exact Except.noConfusion h
    · rw [hspl] at h
      simp only [Except.ok.injEq] at h
      subst h
      have hlr : lr = ((⟨e.1.workchain_id, e.1.bits ++ [false]⟩ : ShardIdent),
          (⟨e.1.workchain_id, e.1.bits ++ [true]⟩ : ShardIdent)) := by
        unfold ShardIdent.split at hspl
        by_cases h60 : 60 ≤ e.1.bits.length
        · rw [if_pos h60] at hspl; exact Except.noConfusion hspl
        · rw [if_neg h60] at hspl
          exact ((Except.ok.injEq _ _).mp hspl).symm
      have hne01 : lr.1 ≠ lr.2 := by
        rw [hlr]
        intro hcontra
        have := congrArg (fun q => q.bits) hcontra
        simp at this
      have hcon : contributes s e =
          ((lr.1 == s) || (lr.2 == s)) := by
        simp only [contributes, hsp, if_true, hlr]
      refine ⟨?_, ?_, ?_⟩
      · intro hc
        rw [hcon] at hc
        simp only [Bool.or_eq_false_iff, beq_eq_false_iff_ne] at hc
        rw [mapLookup_insert, if_neg (fun heq => hc.2 heq),
          mapLookup_insert, if_neg (fun heq => hc.1 heq)]
      · intro _ hk
        exact absurd hk.1 (by rw [hsp]; simp)
      · intro hc _
        rw [hcon] at hc
        rcases Bool.or_eq_true_iff.mp hc with hc1 | hc2
        · have h1s : lr.1 = s := eq_of_beq hc1
          rw [mapLookup_insert, if_neg (fun heq => hne01 (h1s.symm ▸ heq).symm),
            mapLookup_insert, if_pos h1s]
        · have h2s : lr.2 = s := eq_of_beq hc2
          rw [mapLookup_insert, if_pos h2s]


/-- `contribs` unfolded over a cons. -/
theorem contribs_cons (s : ShardIdent) (e : ShardIdent × ShardDescr)
    (tl : List (ShardIdent × ShardDescr)) :
    contribs s (e :: tl) =
      if contributes s e = true then block_id_of e.1 e.2 :: contribs s tl
      else contribs s tl := by
  unfold contribs
  rcases hc : contributes s e with _ | _
  · rw [List.filter_cons_of_neg (by simp [hc])]
    simp [hc]
  · rw [List.filter_cons_of_pos (by simp [hc])]
    simp [hc]

/-- The fold invariant of `get_new_shards`: under pairwise compatibility of
the leaves, the final map is the accumulated contributions. -/
theorem fold_new_shards (L : List (ShardIdent × ShardDescr)) :
    ∀ m0 m, L.Pairwise good_pair → L.foldlM new_shards_step m0 = .ok m →
    ∀ s,
      (contribs s L = [] → mapLookup m s = mapLookup m0 s) ∧
      ((∀ e ∈ L, contributes s e = true → merge_kind e) → contribs s L ≠ [] →
        mapLookup m s = some ((mapLookup m0 s).getD [] ++ contribs s L)) ∧
      ((∃ e ∈ L, contributes s e = true ∧ ¬ merge_kind e) →
        mapLookup m s = some (contribs s L)) := by
  induction L with
  | nil =>
    intro m0 m _ h s
    obtain rfl : m0 = m := by
      simpa [List.foldlM, pure, Except.pure] using h
    refine ⟨fun _ => rfl, fun _ hne => absurd rfl hne, fun hex => ?_⟩
    obtain ⟨e, he, -⟩ := hex
    exact absurd he (List.not_mem_nil e)
  | cons e tl ih =>
    intro m0 m hpw h s
    obtain ⟨hge, hptl⟩ := List.pairwise_cons.mp hpw
    obtain ⟨m1, hstep, hrest⟩ := foldlM_new_shards_cons_ok e tl m0 m h
    obtain ⟨hs0, hsm, hss⟩ := step_lookup m0 e m1 hstep s
    obtain ⟨ih1, ih2, ih3⟩ := ih m1 m hptl hrest s
    rw [contribs_cons]
    rcases hc : contributes s e with _ | _
    · -- e does not contribute to s
      simp only [Bool.false_eq_true, if_false]
      have hmv : mapLookup m1 s = mapLookup m0 s := hs0 hc
      refine ⟨?_, ?_, ?_⟩
      · intro hnil
        rw [ih1 hnil, hmv]
      · intro hall hne
        rw [ih2 (fun x hx => hall x (List.mem_cons_of_mem _ hx)) hne, hmv]
      · intro hex
        obtain ⟨x, hx, hcx, hkx⟩ := hex
        rcases List.mem_cons.mp hx with rfl | hx
        · rw [hc] at hcx; exact absurd hcx (by simp)
        · exact ih3 ⟨x, hx, hcx, hkx⟩
    · -- e contributes to s
      simp only [if_true]
      by_cases hk : merge_kind e
      · -- e is a pure merge contributor
        have hmv : mapLookup m1 s =
            some ((mapLookup m0 s).getD [] ++ [block_id_of e.1 e.2]) := hsm hc hk
        have halltl : ∀ x ∈ tl, contributes s x = true → merge_kind x := by
          intro x hx hcx
          exact ((hge x hx) s hc hcx).2
        refine ⟨?_, ?_, ?_⟩
        · intro hnil
          exact absurd hnil (by simp)
        · intro _ _
          by_cases hct : contribs s tl = []
          · rw [ih1 hct, hmv, hct]
          · rw [ih2 halltl hct, hmv]
            simp
        · intro hex
          obtain ⟨x, hx, hcx, hkx⟩ := hex
          rcases List.mem_cons.mp hx with rfl | hx
          · exact absurd hk hkx
          · exact absurd ((hge x hx) s hc hcx).2 hkx
      · -- e is a split or in-place contributor: it is the only one
        have hmv : mapLookup m1 s = some [block_id_of e.1 e.2] := hss hc hk
        have hnotl : ∀ x ∈ tl, contributes s x = false := by
          intro x hx
          rcases hcx : contributes s x with _ | _
          · rfl
          · exact absurd ((hge x hx) s hc hcx).1 hk
        have hct : contribs s tl = [] := by
          unfold contribs
          rw [List.filter_eq_nil_iff.mpr ?_]
          · rfl
          · intro x hx
            rw [hnotl x hx]
            simp
        refine ⟨?_, ?_, ?_⟩
        · intro hnil
          exact absurd hnil (by simp)
        · intro hall _
          exact absurd (hall e (List.mem_cons_self _ _) hc) hk
        · intro _
          rw [ih1 hct, hmv, hct]


/-- Contribution implies same workchain, and pins the bit relation between
the leaf and the key according to the leaf's kind. -/
theorem contributes_cases (s : ShardIdent) (e : ShardIdent × ShardDescr)
    (h : contributes s e = true) :
    s.workchain_id = e.1.workchain_id ∧
    ((e.2.before_split = true ∧
        (s.bits = e.1.bits ++ [false] ∨ s.bits = e.1.bits ++ [true])) ∨
     (e.2.before_split = false ∧ e.2.before_merge = true ∧ e.1.bits ≠ [] ∧
        s.bits = e.1.bits.dropLast) ∨
     (e.2.before_split = false ∧ e.2.before_merge = false ∧ s.bits = e.1.bits)) := by
  unfold contributes at h
  rcases hsp : e.2.before_split with _ | _
  · rcases hmg : e.2.before_merge with _ | _
    · rw [hsp, hmg] at h
      simp only [Bool.false_eq_true, if_false] at h
      have hs : e.1 = s := eq_of_beq h
      exact ⟨by rw [← hs], Or.inr (Or.inr ⟨rfl, rfl, by rw [← hs]⟩)⟩
    · rw [hsp, hmg] at h
      simp only [Bool.false_eq_true, if_false, if_true, Bool.and_eq_true] at h
      obtain ⟨h1, h2⟩ := h
      have hne : e.1.bits ≠ [] := by
        intro hb
        rw [hb] at h1
        simp at h1
      have hs := eq_of_beq h2
      exact ⟨by rw [← hs], Or.inr (Or.inl ⟨rfl, rfl, hne, by rw [← hs]⟩)⟩
  · rw [hsp] at h
    simp only [if_true, Bool.or_eq_true] at h
    rcases h with h | h
    · have hs := eq_of_beq h
      exact ⟨by rw [← hs], Or.inl ⟨rfl, Or.inl (by rw [← hs])⟩⟩
    · have hs := eq_of_beq h
      exact ⟨by rw [← hs], Or.inl ⟨rfl, Or.inr (by rw [← hs])⟩⟩


/-- Appending one element is injective on the front list. -/
theorem append_last_eq {a b : List Bool} {x y : Bool}
    (h : a ++ [x] = b ++ [y]) : a = b := by
  have hlen : a.length = b.length := by
    have := congrArg List.length h
    simp at this
    exact this
  exact (List.append_inj h hlen).1

/-- Two leaves with incomparable prefixes in the same workchain form a good
pair: a shared contribution target forces both to be merging siblings. -/
theorem good_pair_of_incomp (wc : Int) (a b : List Bool × ShardDescr)
    (h1 : ¬ a.1 <+: b.1) (h2 : ¬ b.1 <+: a.1) :
    good_pair ((⟨wc, a.1⟩ : ShardIdent), a.2) ((⟨wc, b.1⟩ : ShardIdent), b.2) := by
  intro s hca hcb
  obtain ⟨-, hA⟩ := contributes_cases s _ hca
  obtain ⟨-, hB⟩ := contributes_cases s _ hcb
  simp only [merge_kind]
  rcases hA with ⟨-, hA⟩ | ⟨hA1, hA2, hA3, hA4⟩ | ⟨-, -, hA⟩
  · -- a splits: s.bits = a.1 ++ [xa]
    exfalso
    obtain ⟨xa, hsa⟩ : ∃ xa, s.bits = a.1 ++ [xa] := by
      rcases hA with h | h
      · exact ⟨false, h⟩
      · exact ⟨true, h⟩
    rcases hB with ⟨-, hB⟩ | ⟨-, -, hB3, hB4⟩ | ⟨-, -, hB⟩
    · obtain ⟨xb, hsb⟩ : ∃ xb, s.bits = b.1 ++ [xb] := by
        rcases hB with h | h
        · exact ⟨false, h⟩
        · exact ⟨true, h⟩
      exact h1 (append_last_eq (hsa.symm.trans hsb) ▸ List.prefix_refl _)
    · -- b merges: b.1 = s.bits ++ [last]
      have hb : b.1.dropLast ++ [b.1.getLast hB3] = b.1 := List.dropLast_append_getLast hB3
      apply h1
      rw [← hb, ← hB4, hsa, List.append_assoc]
      exact List.prefix_append _ _
    · -- b in place: b.1 = s.bits
      apply h1
      have hb : b.1 = a.1 ++ [xa] := by
        have hx : s.bits = b.1 := hB
        exact hx.symm.trans hsa
      rw [hb]
      exact List.prefix_append _ _
  · -- a merges
    rcases hB with ⟨-, hB⟩ | ⟨hB1, hB2, hB3, hB4⟩ | ⟨-, -, hB⟩
    · exfalso
      obtain ⟨xb, hsb⟩ : ∃ xb, s.bits = b.1 ++ [xb] := by
        rcases hB with h | h
        · exact ⟨false, h⟩
        · exact ⟨true, h⟩
      have ha : a.1.dropLast ++ [a.1.getLast hA3] = a.1 := List.dropLast_append_getLast hA3
      apply h2
      rw [← ha, ← hA4, hsb, List.append_assoc]
      exact List.prefix_append _ _
    · exact ⟨⟨hA1, hA2⟩, ⟨hB1, hB2⟩⟩
    · exfalso
      have ha : a.1.dropLast ++ [a.1.getLast hA3] = a.1 := List.dropLast_append_getLast hA3
      apply h2
      rw [← ha, ← hA4, hB]
      exact List.prefix_append _ _
  · -- a in place: a.1 = s.bits
    exfalso
    rcases hB with ⟨-, hB⟩ | ⟨-, -, hB3, hB4⟩ | ⟨-, -, hB⟩
    · obtain ⟨xb, hsb⟩ : ∃ xb, s.bits = b.1 ++ [xb] := by
        rcases hB with h | h
        · exact ⟨false, h⟩
        · exact ⟨true, h⟩
      apply h2
      have ha : a.1 = b.1 ++ [xb] := by
        have hx : s.bits = a.1 := hA
        exact hx.symm.trans hsb
      rw [ha]
      exact List.prefix_append _ _
    · have hb : b.1.dropLast ++ [b.1.getLast hB3] = b.1 := List.dropLast_append_getLast hB3
      apply h1
      rw [← hb, ← hB4, hA]
      exact List.prefix_append _ _
    · apply h1
      have hab : a.1 = b.1 := by
        have hx : s.bits = a.1 := hA
        have hy : s.bits = b.1 := hB
        exact hx.symm.trans hy
      rw [hab]

/-- Leaf prefixes of a `BinTree` are pairwise incomparable. -/
theorem toList_pairwise_incomp {α : Type} (bt : BinTree α) :
    bt.toList.Pairwise (fun a b => ¬ a.1 <+: b.1 ∧ ¬ b.1 <+: a.1) := by
  induction bt with
  | leaf v =>
    rw [BinTree.toList]
    exact List.pairwise_singleton _ _
  | fork l r ihl ihr =>
    simp only [BinTree.toList]
    rw [List.pairwise_append]
    refine ⟨?_, ?_, ?_⟩
    · rw [List.pairwise_map]
      refine ihl.imp ?_
      intro a b hab
      exact ⟨fun hpre => hab.1 (List.cons_prefix_cons.mp hpre).2,
             fun hpre => hab.2 (List.cons_prefix_cons.mp hpre).2⟩
    · rw [List.pairwise_map]
      refine ihr.imp ?_
      intro a b hab
      exact ⟨fun hpre => hab.1 (List.cons_prefix_cons.mp hpre).2,
             fun hpre => hab.2 (List.cons_prefix_cons.mp hpre).2⟩
    · intro x hx y hy
      obtain ⟨a, -, rfl⟩ := List.mem_map.mp hx
      obtain ⟨b, -, rfl⟩ := List.mem_map.mp hy
      constructor
      · intro hpre
        exact Bool.noConfusion (List.cons_prefix_cons.mp hpre).1
      · intro hpre
        exact Bool.noConfusion (List.cons_prefix_cons.mp hpre).1

/-- All leaves of a `ShardHashes` with distinct workchain keys are pairwise
good. -/
theorem all_shards_pairwise_good (sh : ShardHashes)
    (hnd : (sh.map (fun p => p.1)).Nodup) :
    (all_shards sh).Pairwise good_pair := by
  unfold all_shards
  rw [List.pairwise_flatten]
  refine ⟨?_, ?_⟩
  · intro l hl
    obtain ⟨p, -, rfl⟩ := List.mem_map.mp hl
    rw [List.pairwise_map]
    refine (toList_pairwise_incomp p.2).imp ?_
    intro a b hab
    exact good_pair_of_incomp p.1 a b hab.1 hab.2
  · have hpw : sh.Pairwise (fun p q => p.1 ≠ q.1) := List.pairwise_map.mp hnd
    rw [List.pairwise_map]
    refine hpw.imp ?_
    intro p q hpq x hx y hy
    obtain ⟨xa, -, rfl⟩ := List.mem_map.mp hx
    obtain ⟨ya, -, rfl⟩ := List.mem_map.mp hy
    intro s hcx hcy
    exfalso
    have hx : s.workchain_id = p.1 := (contributes_cases s _ hcx).1
    have hy : s.workchain_id = q.1 := (contributes_cases s _ hcy).1
    exact hpq (hx.symm.trans hy)

/-- C7.  For every `ShardHashes` state (workchain keys distinct), a successful
`get_new_shards()` produces exactly the map described by the spec: for every
shard key `s`, the entry at `s` is the list of block ids of the current
leaves contributing to `s` (a `before_split` leaf contributes its block id to
its two children, a `before_merge` leaf to its parent, accumulating all
merging siblings, and any other leaf to its own shard), and there is no entry
at `s` when no leaf contributes to it. -/
theorem get_new_shards_characterization (sh : ShardHashes)
    (hnd : (sh.map (fun p => p.1)).Nodup) (m : NewShards)
    (h : get_new_shards sh = .ok m) (s : ShardIdent) :
    mapLookup m s = new_shards_spec sh s := by
  have hg := all_shards_pairwise_good sh hnd
  obtain ⟨h1, h2, h3⟩ := fold_new_shards (all_shards sh) [] m hg h s
  unfold new_shards_spec
  by_cases hc : contribs s (all_shards sh) = []
  · rw [h1 hc, hc]
    rfl
  · by_cases hall : ∀ e ∈ all_shards sh, contributes s e = true → merge_kind e
    · rw [h2 hall hc]
      rcases hl : contribs s (all_shards sh) with _ | ⟨b, l⟩
      · exact absurd hl hc
      · rfl
    · push_neg at hall
      obtain ⟨e, he, hce, hke⟩ := hall
      rw [h3 ⟨e, he, hce, hke⟩]
      rcases hl : contribs s (all_shards sh) with _ | ⟨b, l⟩
      · exact absurd hl hc
      · rfl


/-- A shard descriptor marked `before_merge`. -/
def mergingDescr (n : ℕ) : ShardDescr :=
  { ShardDescr.zero with before_merge := true, seq_no := n }

/-- Two sibling leaves both marked `before_merge`. -/
def sampleMergingShards : ShardHashes :=
  [(0, .fork (.leaf (mergingDescr 1)) (.leaf (mergingDescr 2)))]

/-- Witness for C7: the two merging siblings produce a single parent entry
holding both block ids, matching the spec map. -/
theorem get_new_shards_characterization_witness :
    (sampleMergingShards.map (fun p => p.1)).Nodup ∧
    get_new_shards sampleMergingShards =
      .ok [((⟨0, []⟩ : ShardIdent),
            [block_id_of ⟨0, [false]⟩ (mergingDescr 1),
             block_id_of ⟨0, [true]⟩ (mergingDescr 2)])] ∧
    mapLookup [((⟨0, []⟩ : ShardIdent),
            [block_id_of ⟨0, [false]⟩ (mergingDescr 1),
             block_id_of ⟨0, [true]⟩ (mergingDescr 2)])] ⟨0, []⟩ =
      new_shards_spec sampleMergingShards ⟨0, []⟩ := by
  refine ⟨by decide, by decide,
    get_new_shards_characterization sampleMergingShards (by decide) _ (by decide) _⟩


/-- Modelled from the spec: the TVM cell/BuilderData/SliceData layer of
ton_types, outside src/.  A cell is a bit string plus child-cell references;
a `Builder` accumulates bits and references, a `Slice` consumes them from the
front.  Widths are explicit and multi-bit integers are big-endian, as in the
spec's wire-format section. -/
inductive Cell where
  | mk (bits : List Bool) (refs : List Cell)

structure Builder where
  bits : List Bool
  refs : List Cell

structure Slice where
  bits : List Bool
  refs : List Cell

def Builder.empty : Builder := ⟨[], []⟩

def Builder.toCell (b : Builder) : Cell := .mk b.bits b.refs

def Cell.toSlice : Cell → Slice
  | .mk bits refs => ⟨bits, refs⟩

/-- Big-endian bits of `n` in width `w` (the spec's fixed-width integer
encoding). -/
def natToBits : ℕ → ℕ → List Bool
  | 0, _ => []
  | w+1, n => natToBits w (n / 2) ++ [n % 2 == 1]

/-- Big-endian value of a bit string. -/
def bitsToNat (l : List Bool) : ℕ := l.foldl (fun a b => 2 * a + (cond b 1 0)) 0

/-- Modelled from the spec: `append_bits`/`write_to` of a `w`-bit unsigned
integer; fails when the value does not fit. -/
def writeUInt (w n : ℕ) (b : Builder) : Except String Builder :=
  if n < 2^w then .ok ⟨b.bits ++ natToBits w n, b.refs⟩ else .error "uint out of range"

def writeBool (v : Bool) (b : Builder) : Except String Builder :=
  .ok ⟨b.bits ++ [v], b.refs⟩

/-- Modelled from the spec: `checked_append_reference`. -/
def appendRef (c : Cell) (b : Builder) : Except String Builder :=
  .ok ⟨b.bits, b.refs ++ [c]⟩

/-- Modelled from the spec: reading `w` bits from the front of a slice
(`get_next_int` and friends), failing on cell underflow. -/
def readBits (w : ℕ) (s : Slice) : Except String (List Bool × Slice) :=
  if w ≤ s.bits.length then .ok (s.bits.take w, ⟨s.bits.drop w, s.refs⟩)
  else .error "cell underflow"

def readUInt (w : ℕ) (s : Slice) : Except String (ℕ × Slice) :=
  match readBits w s with
  | .error e => .error e
  | .ok p => .ok (bitsToNat p.1, p.2)

def readBit (s : Slice) : Except String (Bool × Slice) :=
  match s.bits with
  | [] => .error "cell underflow"
  | bit :: rest => .ok (bit, ⟨rest, s.refs⟩)

/-- Modelled from the spec: `checked_drain_reference`. -/
def drainRef (s : Slice) : Except String (Cell × Slice) :=
  match s.refs with
  | [] => .error "no references"
  | c :: rest => .ok (c, ⟨s.bits, rest⟩)

/-- An abstract wire codec for an opaque external type: a writer into a
builder and a reader from a slice.  The serializers of `CurrencyCollection`,
`CopyleftRewards`, `ProofChain`, `ValidatorsStat`, `MsgPackId` and
`MeshOutDescr` live outside src/ and enter the theorems only through such a
codec assumed `Lawful`. -/
structure Codec (α : Type) where
  w : α → Builder → Except String Builder
  r : Slice → Except String (α × Slice)

/-- Write/read agreement: whenever the writer succeeds it appends some bits
`db` and refs `dr`, and reading them back (under any continuation of the
slice) returns exactly the written value and leaves the continuation. -/
def WR {α : Type} (wr : Builder → Except String Builder)
    (rd : Slice → Except String (α × Slice)) (v : α) : Prop :=
  ∀ b bq, wr b = .ok bq →
    ∃ db dr, bq = ⟨b.bits ++ db, b.refs ++ dr⟩ ∧
      ∀ rb rr, rd ⟨db ++ rb, dr ++ rr⟩ = .ok (v, ⟨rb, rr⟩)

/-- A codec is lawful when every value written can be read back. -/
def Codec.Lawful {α : Type} (c : Codec α) : Prop := ∀ v, WR (c.w v) c.r v

theorem except_bind_ok {α β : Type} (a : α) (f : α → Except String β) :
    (Except.ok (ε := String) a >>= f) = f a := rfl

theorem bind_ok_inv {α β : Type} {e : Except String α} {f : α → Except String β} {r : β}
    (h : (e >>= f) = .ok r) : ∃ a, e = .ok a ∧ f a = .ok r := by
  rcases he : e with msg | a
  · rw [he] at h
    exact Except.noConfusion h
  · rw [he] at h
    exact ⟨a, rfl, h⟩

theorem writeUInt_inv {w n : ℕ} {b bq : Builder} (h : writeUInt w n b = .ok bq) :
    n < 2^w ∧ bq = ⟨b.bits ++ natToBits w n, b.refs⟩ := by
  unfold writeUInt at h
  by_cases hn : n < 2^w
  · rw [if_pos hn] at h
    exact ⟨hn, ((Except.ok.injEq _ _).mp h).symm⟩
  · rw [if_neg hn] at h
    exact Except.noConfusion h

theorem natToBits_length (w n : ℕ) : (natToBits w n).length = w := by
  induction w generalizing n with
  | zero => rfl
  | succ w ih => simp [natToBits, ih]

theorem bitsToNat_append_one (l : List Bool) (v : Bool) :
    bitsToNat (l ++ [v]) = 2 * bitsToNat l + (cond v 1 0) := by
  unfold bitsToNat
  rw [List.foldl_append]
  rfl

theorem bitsToNat_natToBits (w n : ℕ) (h : n < 2^w) :
    bitsToNat (natToBits w n) = n := by
  induction w generalizing n with
  | zero =>
    interval_cases n
    rfl
  | succ w ih =>
    have hdiv : n / 2 < 2^w := by
      rw [pow_succ] at h
      omega
    rw [natToBits, bitsToNat_append_one, ih _ hdiv]
    rcases Nat.mod_two_eq_zero_or_one n with hm | hm
    · rw [hm]
      simp
      omega
    · rw [hm]
      simp
      omega

theorem readUInt_append (w n : ℕ) (h : n < 2^w) (rb : List Bool) (rr : List Cell) :
    readUInt w ⟨natToBits w n ++ rb, rr⟩ = .ok (n, ⟨rb, rr⟩) := by
  unfold readUInt readBits
  have hlen : (natToBits w n).length = w := natToBits_length w n
  rw [if_pos (by simp [hlen]), List.take_left' hlen, List.drop_left' hlen]
  simp [bitsToNat_natToBits w n h]

theorem readBit_append (v : Bool) (rb : List Bool) (rr : List Cell) :
    readBit ⟨v :: rb, rr⟩ = .ok (v, ⟨rb, rr⟩) := rfl

theorem drainRef_append (c : Cell) (rb : List Bool) (rr : List Cell) :
    drainRef ⟨rb, c :: rr⟩ = .ok (c, ⟨rb, rr⟩) := rfl

theorem WR_writeUInt (w n : ℕ) : WR (writeUInt w n) (readUInt w) n := by
  intro b bq h
  obtain ⟨hn, rfl⟩ := writeUInt_inv h
  exact ⟨natToBits w n, [], by simp, fun rb rr => by
    simpa using readUInt_append w n hn rb rr⟩

theorem WR_writeBool (v : Bool) : WR (writeBool v) readBit v := by
  intro b bq h
  unfold writeBool at h
  obtain rfl := ((Except.ok.injEq _ _).mp h).symm
  exact ⟨[v], [], by simp, fun rb rr => rfl⟩


section CompoundCodecs

attribute [local irreducible] natToBits bitsToNat readBits readUInt writeUInt

/-- `FutureSplitMerge` serialization (master.rs 1357-1377): `fsm_none$0`,
`fsm_split$10` and `fsm_merge$11` with two 32-bit fields. -/
def writeFSM (v : FutureSplitMerge) (b : Builder) : Except String Builder :=
  match v with
  | .None => writeBool false b
  | .Split u i => do
    let b ← writeBool true b
    let b ← writeBool false b
    let b ← writeUInt 32 u b
    writeUInt 32 i b
  | .Merge u i => do
    let b ← writeBool true b
    let b ← writeBool true b
    let b ← writeUInt 32 u b
    writeUInt 32 i b

/-- `FutureSplitMerge` deserialization (master.rs 1379-1395). -/
def readFSM (s : Slice) : Except String (FutureSplitMerge × Slice) := do
  let (b1, s) ← readBit s
  if b1 = false then .ok (.None, s)
  else do
    let (b2, s) ← readBit s
    if b2 = false then do
      let (u, s) ← readUInt 32 s
      let (i, s) ← readUInt 32 s
      .ok (.Split u i, s)
    else do
      let (u, s) ← readUInt 32 s
      let (i, s) ← readUInt 32 s
      .ok (.Merge u i, s)

theorem WR_writeFSM (v : FutureSplitMerge) : WR (writeFSM v) readFSM v := by
  intro b bq h
  rcases v with _ | ⟨u, i⟩ | ⟨u, i⟩
  · unfold writeFSM at h
    obtain rfl := ((Except.ok.injEq _ _).mp h).symm
    exact ⟨[false], [], by simp [writeBool], fun rb rr => rfl⟩
  · unfold writeFSM at h
    simp only [writeBool, except_bind_ok] at h
    obtain ⟨b1, h1, h⟩ := bind_ok_inv h
    obtain ⟨hu, rfl⟩ := writeUInt_inv h1
    obtain ⟨hi, rfl⟩ := writeUInt_inv h
    refine ⟨[true, false] ++ natToBits 32 u ++ natToBits 32 i, [], by simp, fun rb rr => ?_⟩
    simp only [readFSM, List.append_assoc, List.cons_append, List.nil_append,
      readBit_append, except_bind_ok]
    norm_num
    rw [readUInt_append 32 u hu, except_bind_ok, readUInt_append 32 i hi, except_bind_ok]
  · unfold writeFSM at h
    simp only [writeBool, except_bind_ok] at h
    obtain ⟨b1, h1, h⟩ := bind_ok_inv h
    obtain ⟨hu, rfl⟩ := writeUInt_inv h1
    obtain ⟨hi, rfl⟩ := writeUInt_inv h
    refine ⟨[true, true] ++ natToBits 32 u ++ natToBits 32 i, [], by simp, fun rb rr => ?_⟩
    simp only [readFSM, List.append_assoc, List.cons_append, List.nil_append,
      readBit_append, except_bind_ok]
    norm_num
    rw [readUInt_append 32 u hu, except_bind_ok, readUInt_append 32 i hi, except_bind_ok]

/-- Modelled from the spec: `Option<T>` serialization — a presence bit, then
the value. -/
def writeOpt {α : Type} (wf : α → Builder → Except String Builder) :
    Option α → Builder → Except String Builder
  | none, b => writeBool false b
  | some v, b => do
    let b ← writeBool true b
    wf v b

/-- Modelled from the spec: `Option<T>` deserialization. -/
def readOpt {α : Type} (rf : Slice → Except String (α × Slice)) (s : Slice) :
    Except String (Option α × Slice) := do
  let (pres, s) ← readBit s
  if pres = true then do
    let (v, s) ← rf s
    .ok (some v, s)
  else .ok (none, s)

theorem WR_writeOpt {α : Type} {wf : α → Builder → Except String Builder}
    {rf : Slice → Except String (α × Slice)} (v : Option α)
    (hwf : ∀ a ∈ v, WR (wf a) rf a) :
    WR (writeOpt wf v) (readOpt rf) v := by
  intro b bq h
  rcases v with _ | a
  · unfold writeOpt at h
    obtain rfl := ((Except.ok.injEq _ _).mp h).symm
    exact ⟨[false], [], by simp [writeBool], fun rb rr => rfl⟩
  · unfold writeOpt at h
    simp only [writeBool, except_bind_ok] at h
    obtain ⟨db2, dr2, rfl, hread⟩ := hwf a rfl ⟨b.bits ++ [true], b.refs⟩ bq h
    refine ⟨[true] ++ db2, dr2, by simp, fun rb rr => ?_⟩
    simp only [readOpt, List.cons_append, List.nil_append, readBit_append, except_bind_ok]
    norm_num
    rw [hread rb rr, except_bind_ok]

/-- Modelled from the spec: `UInt256` as 256 raw bits. -/
def writeU256 (v : UInt256) (b : Builder) : Except String Builder :=
  writeUInt 256 v.val b

def readU256 (s : Slice) : Except String (UInt256 × Slice) :=
  (readUInt 256 s).map (fun p => (⟨p.1⟩, p.2))

theorem WR_writeU256 (v : UInt256) : WR (writeU256 v) readU256 v := by
  intro b bq h
  unfold writeU256 at h
  obtain ⟨hn, rfl⟩ := writeUInt_inv h
  refine ⟨natToBits 256 v.val, [], by simp, fun rb rr => ?_⟩
  unfold readU256
  rw [readUInt_append 256 v.val hn]
  rfl

/-- The mempool loop of `CollatorRange::construct_from_with_opts`
(master.rs 1457-1459): read `n` 16-bit integers. -/
def readU16List : ℕ → Slice → Except String (List ℕ × Slice)
  | 0, s => .ok ([], s)
  | n+1, s => do
    let (x, s) ← readUInt 16 s
    let (xs, s) ← readU16List n s
    .ok (x :: xs, s)

theorem wu16_fold_inv {l : List ℕ} {b bq : Builder}
    (h : l.foldlM (fun bb x => writeUInt 16 x bb) b = .ok bq) :
    bq = ⟨b.bits ++ l.flatMap (natToBits 16), b.refs⟩ ∧ ∀ x ∈ l, x < 2^16 := by
  induction l generalizing b with
  | nil =>
    simp only [List.foldlM_nil] at h
    obtain rfl := ((Except.ok.injEq _ _).mp h)
    simp
  | cons x xs ih =>
    rw [List.foldlM_cons] at h
    obtain ⟨b2, h1, h2⟩ := bind_ok_inv h
    obtain ⟨hx, rfl⟩ := writeUInt_inv h1
    obtain ⟨hsh, hbnd⟩ := ih h2
    refine ⟨by simp [hsh], ?_⟩
    intro y hy
    rcases List.mem_cons.mp hy with rfl | hy2
    · exact hx
    · exact hbnd y hy2

theorem readU16List_append (l : List ℕ) (hl : ∀ x ∈ l, x < 2^16) (rb : List Bool)
    (rr : List Cell) :
    readU16List l.length ⟨l.flatMap (natToBits 16) ++ rb, rr⟩ = .ok (l, ⟨rb, rr⟩) := by
  induction l generalizing rb with
  | nil => rfl
  | cons x xs ih =>
    have hx : x < 2^16 := hl x (List.mem_cons_self x xs)
    have hxs : ∀ y ∈ xs, y < 2^16 := fun y hy => hl y (List.mem_cons_of_mem x hy)
    show readU16List (xs.length + 1) _ = _
    rw [readU16List]
    have hbits : (x :: xs).flatMap (natToBits 16) ++ rb =
        natToBits 16 x ++ (xs.flatMap (natToBits 16) ++ rb) := by
      simp [List.flatMap_cons]
    rw [hbits, readUInt_append 16 x hx, except_bind_ok]
    dsimp only
    rw [ih hxs, except_bind_ok]

/-- `CollatorRange::write_with_opts` (master.rs 1424-1441); `mem` is the
`SERDE_OPTS_MEMPOOL_NODES` option bit, under which the length-prefixed
mempool list is written. -/
def writeCR (mem : Bool) (v : CollatorRange) (b : Builder) : Except String Builder := do
  if v.mempool.length > 9 then .error "Too many validators in mempool" else
  let b ← writeUInt 16 v.collator b
  let b ← (if mem then do
      if v.mempool.length > 255 then Except.error "Too many validators in mempool" else
      let b ← writeUInt 8 v.mempool.length b
      v.mempool.foldlM (fun bb x => writeUInt 16 x bb) b
    else .ok b)
  let b ← writeUInt 32 v.start b
  writeUInt 32 v.finish b

/-- `CollatorRange::construct_from_with_opts` (master.rs 1449-1467): without
the mempool option the list is left empty. -/
def readCR (mem : Bool) (s : Slice) : Except String (CollatorRange × Slice) := do
  let (collator, s) ← readUInt 16 s
  let (mp, s) ← (if mem then do
      let (len, s) ← readUInt 8 s
      if len > 9 then Except.error "Too many validators in mempool" else
      readU16List len s
    else .ok ([], s))
  let (start, s) ← readUInt 32 s
  let (finish, s) ← readUInt 32 s
  .ok (⟨collator, mp, start, finish⟩, s)

theorem WR_writeCR (mem : Bool) (v : CollatorRange) (hm : mem = false → v.mempool = []) :
    WR (writeCR mem v) (readCR mem) v := by
  intro b bq h
  unfold writeCR at h
  by_cases hlen : v.mempool.length > 9
  · rw [if_pos hlen] at h
    exact Except.noConfusion h
  rw [if_neg hlen] at h
  obtain ⟨b1, h1, h⟩ := bind_ok_inv h
  obtain ⟨hcol, rfl⟩ := writeUInt_inv h1
  obtain ⟨b2, h2, h⟩ := bind_ok_inv h
  obtain ⟨b3, h3, h⟩ := bind_ok_inv h
  obtain ⟨hst, rfl⟩ := writeUInt_inv h3
  obtain ⟨hfin, rfl⟩ := writeUInt_inv h
  rcases mem with _ | _
  · rw [if_neg (by simp)] at h2
    obtain rfl := ((Except.ok.injEq _ _).mp h2)
    have hmp : v.mempool = [] := hm rfl
    refine ⟨natToBits 16 v.collator ++ natToBits 32 v.start ++ natToBits 32 v.finish, [],
      by simp, fun rb rr => ?_⟩
    unfold readCR
    rw [List.append_assoc, List.append_assoc, readUInt_append 16 v.collator hcol,
      except_bind_ok]
    dsimp only
    rw [if_neg (by simp), except_bind_ok]
    dsimp only
    rw [readUInt_append 32 v.start hst, except_bind_ok]
    dsimp only
    rw [readUInt_append 32 v.finish hfin, except_bind_ok]
    dsimp only
    rw [List.nil_append, ← hmp]
  · rw [if_pos (by simp)] at h2
    rw [if_neg (by omega)] at h2
    obtain ⟨b4, h4, h2⟩ := bind_ok_inv h2
    obtain ⟨hlen8, rfl⟩ := writeUInt_inv h4
    obtain ⟨rfl, hbnd⟩ := wu16_fold_inv h2
    refine ⟨natToBits 16 v.collator ++ (natToBits 8 v.mempool.length ++
      v.mempool.flatMap (natToBits 16)) ++ natToBits 32 v.start ++ natToBits 32 v.finish, [],
      by simp, fun rb rr => ?_⟩
    unfold readCR
    rw [List.append_assoc, List.append_assoc, List.append_assoc,
      readUInt_append 16 v.collator hcol, except_bind_ok]
    dsimp only
    rw [if_pos (by simp)]
    rw [List.append_assoc, readUInt_append 8 v.mempool.length hlen8, except_bind_ok]
    dsimp only
    rw [if_neg (by omega)]
    rw [readU16List_append v.mempool hbnd, except_bind_ok]
    dsimp only
    rw [readUInt_append 32 v.start hst, except_bind_ok]
    dsimp only
    rw [readUInt_append 32 v.finish hfin, except_bind_ok]
    dsimp only
    rw [List.nil_append]

/-- `ShardCollators::write_to` (master.rs 1508-1527): tag 1 with plain ranges
when the validator statistics are empty, else tag 2 with mempool lists and
the statistics in a child cell. -/
def writeSC (vs : Codec ValidatorsStat) (v : ShardCollators) (b : Builder) :
    Except String Builder := do
  let tag : ℕ := if v.stat.is_empty then 1 else 2
  let mem : Bool := !v.stat.is_empty
  let b ← writeUInt 4 tag b
  let b ← writeCR mem v.prev b
  let b ← writeOpt (writeCR mem) v.prev2 b
  let b ← writeCR mem v.current b
  let b ← writeCR mem v.next b
  let b ← writeOpt (writeCR mem) v.next2 b
  let b ← writeUInt 32 v.updated_at b
  if v.stat.is_empty then .ok b
  else do
    let c ← vs.w v.stat Builder.empty
    appendRef c.toCell b

/-- `ShardCollators::construct_from` (master.rs 1529-1560). -/
def readSC (vs : Codec ValidatorsStat) (s : Slice) : Except String (ShardCollators × Slice) := do
  let (tag, s) ← readUInt 4 s
  if tag ≠ 1 ∧ tag ≠ 2 then .error "InvalidConstructorTag ShardCollators" else
  let mem : Bool := tag == 2
  let (prev, s) ← readCR mem s
  let (prev2, s) ← readOpt (readCR mem) s
  let (current, s) ← readCR mem s
  let (next, s) ← readCR mem s
  let (next2, s) ← readOpt (readCR mem) s
  let (upd, s) ← readUInt 32 s
  if mem then do
    let (c, s) ← drainRef s
    let (stat, _) ← vs.r c.toSlice
    .ok (⟨prev, prev2, current, next, next2, upd, stat⟩, s)
  else .ok (⟨prev, prev2, current, next, next2, upd, ⟨0⟩⟩, s)

/-- An empty `ValidatorsStat` is the default value. -/
theorem stat_empty_eq {x : ValidatorsStat} (h : x.is_empty = true) : x = ⟨0⟩ := by
  rcases x with ⟨n⟩
  simp [ValidatorsStat.is_empty] at h
  simp [h]

theorem WR_writeSC (vs : Codec ValidatorsStat) (hvs : vs.Lawful) (v : ShardCollators)
    (hm : v.stat.is_empty = true →
      v.prev.mempool = [] ∧ (∀ c ∈ v.prev2, c.mempool = []) ∧ v.current.mempool = [] ∧
      v.next.mempool = [] ∧ ∀ c ∈ v.next2, c.mempool = []) :
    WR (writeSC vs v) (readSC vs) v := by
  intro b bq h
  unfold writeSC at h
  rcases hstat : v.stat.is_empty with _ | _ <;> rw [hstat] at h
  · -- non-empty stat: tag 2, mempool lists on
    simp only [Bool.false_eq_true, if_false, Bool.not_false] at h
    obtain ⟨b1, h1, h⟩ := bind_ok_inv h
    obtain ⟨htag, rfl⟩ := writeUInt_inv h1
    obtain ⟨b2, h2, h⟩ := bind_ok_inv h
    obtain ⟨db1, dr1, rfl, hr1⟩ := WR_writeCR true v.prev (by simp) _ _ h2
    obtain ⟨b3, h3, h⟩ := bind_ok_inv h
    obtain ⟨db2, dr2, rfl, hr2⟩ :=
      WR_writeOpt v.prev2 (fun a _ => WR_writeCR true a (by simp)) _ _ h3
    obtain ⟨b4, h4, h⟩ := bind_ok_inv h
    obtain ⟨db3, dr3, rfl, hr3⟩ := WR_writeCR true v.current (by simp) _ _ h4
    obtain ⟨b5, h5, h⟩ := bind_ok_inv h
    obtain ⟨db4, dr4, rfl, hr4⟩ := WR_writeCR true v.next (by simp) _ _ h5
    obtain ⟨b6, h6, h⟩ := bind_ok_inv h
    obtain ⟨db5, dr5, rfl, hr5⟩ :=
      WR_writeOpt v.next2 (fun a _ => WR_writeCR true a (by simp)) _ _ h6
    obtain ⟨b7, h7, h⟩ := bind_ok_inv h
    obtain ⟨hupd, rfl⟩ := writeUInt_inv h7
    obtain ⟨c, hc, h⟩ := bind_ok_inv h
    obtain ⟨dbs, drs, rfl, hrs⟩ := hvs v.stat _ _ hc
    unfold appendRef at h
    obtain rfl := ((Except.ok.injEq _ _).mp h).symm
    refine ⟨natToBits 4 2 ++ db1 ++ db2 ++ db3 ++ db4 ++ db5 ++ natToBits 32 v.updated_at,
      dr1 ++ dr2 ++ dr3 ++ dr4 ++ dr5 ++
        [(⟨Builder.empty.bits ++ dbs, Builder.empty.refs ++ drs⟩ : Builder).toCell],
      by simp, fun rb rr => ?_⟩
    unfold readSC
    simp only [List.append_assoc]
    rw [readUInt_append 4 2 (by norm_num), except_bind_ok]
    dsimp only
    rw [if_neg (by decide)]
    simp only [show ((2 : ℕ) == 2) = true from rfl]
    rw [hr1, except_bind_ok]
    dsimp only
    rw [hr2, except_bind_ok]
    dsimp only
    rw [hr3, except_bind_ok]
    dsimp only
    rw [hr4, except_bind_ok]
    dsimp only
    rw [hr5, except_bind_ok]
    dsimp only
    rw [readUInt_append 32 v.updated_at hupd, except_bind_ok]
    dsimp only
    rw [if_pos trivial]
    rw [List.singleton_append, drainRef_append, except_bind_ok]
    dsimp only [Builder.toCell, Cell.toSlice, Builder.empty]
    simp only [List.nil_append]
    have hsr := hrs [] []
    rw [List.append_nil, List.append_nil] at hsr
    rw [hsr, except_bind_ok]
  · -- empty stat: tag 1, mempool lists off
    obtain ⟨hp1, hp2, hp3, hp4, hp5⟩ := hm hstat
    simp only [if_true, Bool.not_true] at h
    obtain ⟨b1, h1, h⟩ := bind_ok_inv h
    obtain ⟨htag, rfl⟩ := writeUInt_inv h1
    obtain ⟨b2, h2, h⟩ := bind_ok_inv h
    obtain ⟨db1, dr1, rfl, hr1⟩ := WR_writeCR false v.prev (fun _ => hp1) _ _ h2
    obtain ⟨b3, h3, h⟩ := bind_ok_inv h
    obtain ⟨db2, dr2, rfl, hr2⟩ :=
      WR_writeOpt v.prev2 (fun a ha => WR_writeCR false a (fun _ => hp2 a ha)) _ _ h3
    obtain ⟨b4, h4, h⟩ := bind_ok_inv h
    obtain ⟨db3, dr3, rfl, hr3⟩ := WR_writeCR false v.current (fun _ => hp3) _ _ h4
    obtain ⟨b5, h5, h⟩ := bind_ok_inv h
    obtain ⟨db4, dr4, rfl, hr4⟩ := WR_writeCR false v.next (fun _ => hp4) _ _ h5
    obtain ⟨b6, h6, h⟩ := bind_ok_inv h
    obtain ⟨db5, dr5, rfl, hr5⟩ :=
      WR_writeOpt v.next2 (fun a ha => WR_writeCR false a (fun _ => hp5 a ha)) _ _ h6
    obtain ⟨b7, h7, h⟩ := bind_ok_inv h
    obtain ⟨hupd, rfl⟩ := writeUInt_inv h7
    obtain rfl := ((Except.ok.injEq _ _).mp h)
    refine ⟨natToBits 4 1 ++ db1 ++ db2 ++ db3 ++ db4 ++ db5 ++ natToBits 32 v.updated_at,
      dr1 ++ dr2 ++ dr3 ++ dr4 ++ dr5, by simp, fun rb rr => ?_⟩
    unfold readSC
    simp only [List.append_assoc]
    rw [readUInt_append 4 1 (by norm_num), except_bind_ok]
    dsimp only
    rw [if_neg (by decide)]
    simp only [show ((1 : ℕ) == 2) = false from rfl]
    rw [hr1, except_bind_ok]
    dsimp only
    rw [hr2, except_bind_ok]
    dsimp only
    rw [hr3, except_bind_ok]
    dsimp only
    rw [hr4, except_bind_ok]
    dsimp only
    rw [hr5, except_bind_ok]
    dsimp only
    rw [readUInt_append 32 v.updated_at hupd, except_bind_ok]
    dsimp only
    rw [show (⟨0⟩ : ValidatorsStat) = v.stat from (stat_empty_eq hstat).symm]
    rw [if_neg (by simp)]

/-- `MsgPackProcessingInfo::write_to` (master.rs 1773-1781). -/
def writeMPI (mid : Codec MsgPackId) (v : MsgPackProcessingInfo) (b : Builder) :
    Except String Builder := do
  let b ← writeUInt 4 1 b
  let b ← writeUInt 64 v.round b
  let b ← mid.w v.last_id b
  writeOpt writeU256 v.last_partially_included b

/-- `MsgPackProcessingInfo::read_from` (master.rs 1783-1799). -/
def readMPI (mid : Codec MsgPackId) (s : Slice) :
    Except String (MsgPackProcessingInfo × Slice) := do
  let (tag, s) ← readUInt 4 s
  if tag ≠ 1 then .error "InvalidConstructorTag MsgPackProcessingInfo" else
  let (rnd, s) ← readUInt 64 s
  let (lid, s) ← mid.r s
  let (lpi, s) ← readOpt readU256 s
  .ok (⟨rnd, lid, lpi⟩, s)

theorem WR_writeMPI (mid : Codec MsgPackId) (hmid : mid.Lawful) (v : MsgPackProcessingInfo) :
    WR (writeMPI mid v) (readMPI mid) v := by
  intro b bq h
  unfold writeMPI at h
  obtain ⟨b1, h1, h⟩ := bind_ok_inv h
  obtain ⟨htag, rfl⟩ := writeUInt_inv h1
  obtain ⟨b2, h2, h⟩ := bind_ok_inv h
  obtain ⟨hrnd, rfl⟩ := writeUInt_inv h2
  obtain ⟨b3, h3, h⟩ := bind_ok_inv h
  obtain ⟨db1, dr1, rfl, hr1⟩ := hmid v.last_id _ _ h3
  obtain ⟨db2, dr2, rfl, hr2⟩ :=
    WR_writeOpt v.last_partially_included (fun a _ => WR_writeU256 a) _ _ h
  refine ⟨natToBits 4 1 ++ natToBits 64 v.round ++ db1 ++ db2, dr1 ++ dr2,
    by simp, fun rb rr => ?_⟩
  unfold readMPI
  simp only [List.append_assoc]
  rw [readUInt_append 4 1 (by norm_num), except_bind_ok]
  dsimp only
  rw [if_neg (by decide)]
  rw [readUInt_append 64 v.round hrnd, except_bind_ok]
  dsimp only
  rw [hr1, except_bind_ok]
  dsimp only
  rw [hr2, except_bind_ok]

/-- The flags byte assembled by `ShardDescr::write_to` (master.rs 2029-2044)
from the five boolean fields; the `flags` field itself is never encoded. -/
def flagsByte (v : ShardDescr) : ℕ :=
  ((((0 ||| cond v.before_split 128 0) ||| cond v.before_merge 64 0) |||
    cond v.want_split 32 0) ||| cond v.want_merge 16 0) ||| cond v.nx_cc_updated 8 0

/-- The constructor tag chosen by `ShardDescr::write_to` (master.rs
2006-2018): 0x9 when pack_info is present, else 0xF when mesh queues are
nonempty, else 0xE with collators, else 0xD with a proof chain, else 0xC
with copyleft rewards, else 0xA; 0xB is never emitted. -/
def sdTag (v : ShardDescr) : ℕ :=
  if v.pack_info.isSome then 9
  else if !v.mesh_msg_queues.is_empty then 15
  else if v.collators.isSome then 14
  else if v.proof_chain.isSome then 13
  else if !v.copyleft_rewards.is_empty then 12
  else 10

/-- The fields common to every `ShardDescr` tag variant, in wire order
(master.rs 1934-1956). -/
structure SDHeader where
  tag : ℕ
  seq_no : ℕ
  reg_mc_seqno : ℕ
  start_lt : ℕ
  end_lt : ℕ
  root_hash : UInt256
  file_hash : UInt256
  before_split : Bool
  before_merge : Bool
  want_split : Bool
  want_merge : Bool
  nx_cc_updated : Bool
  next_catchain_seqno : ℕ
  next_validator_shard : ℕ
  min_ref_mc_seqno : ℕ
  gen_utime : ℕ
  split_merge_at : FutureSplitMerge

/-- The fixed prefix of `ShardDescr::write_to` (master.rs 2020-2055): tag,
twelve integer/hash fields, the flags byte (with the `flags & 7` guard on the
raw field), and the split/merge state. -/
def writeSDHeader (tag : ℕ) (v : ShardDescr) (b : Builder) : Except String Builder := do
  let b ← writeUInt 4 tag b
  let b ← writeUInt 32 v.seq_no b
  let b ← writeUInt 32 v.reg_mc_seqno b
  let b ← writeUInt 64 v.start_lt b
  let b ← writeUInt 64 v.end_lt b
  let b ← writeU256 v.root_hash b
  let b ← writeU256 v.file_hash b
  if v.flags % 8 ≠ 0 then .error "flags & 7 must be zero" else
  let b ← writeUInt 8 (flagsByte v) b
  let b ← writeUInt 32 v.next_catchain_seqno b
  let b ← writeUInt 64 v.next_validator_shard b
  let b ← writeUInt 32 v.min_ref_mc_seqno b
  let b ← writeUInt 32 v.gen_utime b
  writeFSM v.split_merge_at b

/-- The fixed prefix of `ShardDescr::read_from` (master.rs 1924-1956): tag
membership check, the common fields, flag-bit extraction and the `flags & 7`
guard. -/
def readSDHeader (s : Slice) : Except String (SDHeader × Slice) := do
  let (tag, s) ← readUInt 4 s
  if tag ∉ ([10, 11, 12, 13, 14, 15, 9] : List ℕ) then
    .error "InvalidConstructorTag ShardDescr" else
  let (sq, s) ← readUInt 32 s
  let (reg, s) ← readUInt 32 s
  let (slt, s) ← readUInt 64 s
  let (elt, s) ← readUInt 64 s
  let (rh, s) ← readU256 s
  let (fh, s) ← readU256 s
  let (flags, s) ← readUInt 8 s
  if flags % 8 ≠ 0 then .error "flags & 7 in ShardDescr must be zero" else
  let (ncs, s) ← readUInt 32 s
  let (nvs, s) ← readUInt 64 s
  let (mrm, s) ← readUInt 32 s
  let (gu, s) ← readUInt 32 s
  let (fsm, s) ← readFSM s
  .ok (⟨tag, sq, reg, slt, elt, rh, fh,
    flags / 128 % 2 == 1, flags / 64 % 2 == 1, flags / 32 % 2 == 1,
    flags / 16 % 2 == 1, flags / 8 % 2 == 1, ncs, nvs, mrm, gu, fsm⟩, s)

/-- The header that serializing `v` under `tag` puts on the wire. -/
def sdHeaderOf (tag : ℕ) (v : ShardDescr) : SDHeader :=
  ⟨tag, v.seq_no, v.reg_mc_seqno, v.start_lt, v.end_lt, v.root_hash, v.file_hash,
   v.before_split, v.before_merge, v.want_split, v.want_merge, v.nx_cc_updated,
   v.next_catchain_seqno, v.next_validator_shard, v.min_ref_mc_seqno, v.gen_utime,
   v.split_merge_at⟩

/-- The flags byte fits in 8 bits, has zero low bits, and decodes back to
the five booleans exactly as `read_from` extracts them (master.rs 1942-1946). -/
theorem flagsByte_spec (v : ShardDescr) :
    flagsByte v < 256 ∧ flagsByte v % 8 = 0 ∧
    (flagsByte v / 128 % 2 == 1) = v.before_split ∧
    (flagsByte v / 64 % 2 == 1) = v.before_merge ∧
    (flagsByte v / 32 % 2 == 1) = v.want_split ∧
    (flagsByte v / 16 % 2 == 1) = v.want_merge ∧
    (flagsByte v / 8 % 2 == 1) = v.nx_cc_updated := by
  unfold flagsByte
  cases v.before_split <;> cases v.before_merge <;> cases v.want_split <;>
    cases v.want_merge <;> cases v.nx_cc_updated <;> decide

/-- Round trip of the common `ShardDescr` prefix: a successful header write
implies `flags & 7 = 0` and the written bits read back to `sdHeaderOf tag v`. -/
theorem writeSDHeader_rt (tag : ℕ) (v : ShardDescr)
    (htag : tag ∈ ([10, 11, 12, 13, 14, 15, 9] : List ℕ)) :
    ∀ b bq, writeSDHeader tag v b = .ok bq →
      v.flags % 8 = 0 ∧
      ∃ db dr, bq = ⟨b.bits ++ db, b.refs ++ dr⟩ ∧
        ∀ rb rr, readSDHeader ⟨db ++ rb, dr ++ rr⟩ = .ok (sdHeaderOf tag v, ⟨rb, rr⟩) := by
  intro b bq h
  obtain ⟨hfb, hf8, hbs, hbm, hws, hwm, hnx⟩ := flagsByte_spec v
  unfold writeSDHeader at h
  obtain ⟨b1, h1, h⟩ := bind_ok_inv h
  obtain ⟨ht4, rfl⟩ := writeUInt_inv h1
  obtain ⟨b2, h2, h⟩ := bind_ok_inv h
  obtain ⟨hsq, rfl⟩ := writeUInt_inv h2
  obtain ⟨b3, h3, h⟩ := bind_ok_inv h
  obtain ⟨hreg, rfl⟩ := writeUInt_inv h3
  obtain ⟨b4, h4, h⟩ := bind_ok_inv h
  obtain ⟨hslt, rfl⟩ := writeUInt_inv h4
  obtain ⟨b5, h5, h⟩ := bind_ok_inv h
  obtain ⟨helt, rfl⟩ := writeUInt_inv h5
  obtain ⟨b6, h6, h⟩ := bind_ok_inv h
  obtain ⟨db6, dr6, rfl, hr6⟩ := WR_writeU256 v.root_hash _ _ h6
  obtain ⟨b7, h7, h⟩ := bind_ok_inv h
  obtain ⟨db7, dr7, rfl, hr7⟩ := WR_writeU256 v.file_hash _ _ h7
  by_cases hfl : v.flags % 8 ≠ 0
  · rw [if_pos hfl] at h
    exact absurd h (by simp)
  rw [if_neg hfl] at h
  refine ⟨by omega, ?_⟩
  obtain ⟨b8, h8, h⟩ := bind_ok_inv h
  obtain ⟨hflb, rfl⟩ := writeUInt_inv h8
  obtain ⟨b9, h9, h⟩ := bind_ok_inv h
  obtain ⟨hncs, rfl⟩ := writeUInt_inv h9
  obtain ⟨b10, h10, h⟩ := bind_ok_inv h
  obtain ⟨hnvs, rfl⟩ := writeUInt_inv h10
  obtain ⟨b11, h11, h⟩ := bind_ok_inv h
  obtain ⟨hmrm, rfl⟩ := writeUInt_inv h11
  obtain ⟨b12, h12, h⟩ := bind_ok_inv h
  obtain ⟨hgu, rfl⟩ := writeUInt_inv h12
  obtain ⟨dbf, drf, rfl, hrf⟩ := WR_writeFSM v.split_merge_at _ _ h
  refine ⟨natToBits 4 tag ++ natToBits 32 v.seq_no ++ natToBits 32 v.reg_mc_seqno ++
    natToBits 64 v.start_lt ++ natToBits 64 v.end_lt ++ db6 ++ db7 ++
    natToBits 8 (flagsByte v) ++ natToBits 32 v.next_catchain_seqno ++
    natToBits 64 v.next_validator_shard ++ natToBits 32 v.min_ref_mc_seqno ++
    natToBits 32 v.gen_utime ++ dbf, dr6 ++ dr7 ++ drf, by simp, fun rb rr => ?_⟩
  unfold readSDHeader
  simp only [List.append_assoc]
  rw [readUInt_append 4 tag ht4, except_bind_ok]
  dsimp only
  rw [if_neg (not_not_intro htag)]
  rw [readUInt_append 32 v.seq_no hsq, except_bind_ok]
  dsimp only
  rw [readUInt_append 32 v.reg_mc_seqno hreg, except_bind_ok]
  dsimp only
  rw [readUInt_append 64 v.start_lt hslt, except_bind_ok]
  dsimp only
  rw [readUInt_append 64 v.end_lt helt, except_bind_ok]
  dsimp only
  rw [hr6, except_bind_ok]
  dsimp only
  rw [hr7, except_bind_ok]
  dsimp only
  rw [readUInt_append 8 (flagsByte v) hfb, except_bind_ok]
  dsimp only
  rw [if_neg (not_not_intro hf8)]
  rw [readUInt_append 32 v.next_catchain_seqno hncs, except_bind_ok]
  dsimp only
  rw [readUInt_append 64 v.next_validator_shard hnvs, except_bind_ok]
  dsimp only
  rw [readUInt_append 32 v.min_ref_mc_seqno hmrm, except_bind_ok]
  dsimp only
  rw [readUInt_append 32 v.gen_utime hgu, except_bind_ok]
  dsimp only
  rw [hrf, except_bind_ok]
  rw [hbs, hbm, hws, hwm, hnx]
  rfl

/-- `ShardDescr::write_to` (master.rs 2004-2096): header, then a child cell
holding fees/funds and the tag-specific payload (with the copyleft guard for
tags 0xE/0xF/0x9 and a second child cell for pack_info under 0x9), then the
mesh queues inline whenever they are nonempty. -/
def encodeShardDescr (cc : Codec CurrencyCollection) (cl : Codec CopyleftRewards)
    (pc : Codec ProofChain) (vs : Codec ValidatorsStat) (mid : Codec MsgPackId)
    (mesh : Codec MeshOutDescr) (v : ShardDescr) (b : Builder) : Except String Builder := do
  let tag := sdTag v
  let b ← writeSDHeader tag v b
  let child := Builder.empty
  let child ← cc.w v.fees_collected child
  let child ← cc.w v.funds_created child
  let child ← (
    if tag = 14 ∨ tag = 15 ∨ tag = 9 then
      if !v.copyleft_rewards.is_empty then
        Except.error "copyleft_rewards is not supported with collators or mesh_msg_queues"
      else do
        let child ← writeOpt pc.w v.proof_chain child
        let child ← writeOpt (writeSC vs) v.collators child
        if tag = 9 then do
          let child2 ← writeOpt (writeMPI mid) v.pack_info Builder.empty
          appendRef child2.toCell child
        else .ok child
    else if tag = 13 then
      match v.proof_chain with
      | none => Except.error "INTARNAL ERROR: proof_chain is None"
      | some pchain => do
        let child ← (if !v.copyleft_rewards.is_empty then do
            let child ← writeBool true child
            cl.w v.copyleft_rewards child
          else writeBool false child)
        pc.w pchain child
    else if tag = 12 then cl.w v.copyleft_rewards child
    else .ok child)
  let b ← appendRef child.toCell b
  if !v.mesh_msg_queues.is_empty then mesh.w v.mesh_msg_queues b else .ok b

/-- `ShardDescr::read_from` (master.rs 1922-2002) starting from the default
value: the `flags` field is never assigned, the mesh queues are read only for
tag 0xF, and each tag variant reads its payload from the child cell. -/
def decodeShardDescr (cc : Codec CurrencyCollection) (cl : Codec CopyleftRewards)
    (pc : Codec ProofChain) (vs : Codec ValidatorsStat) (mid : Codec MsgPackId)
    (mesh : Codec MeshOutDescr) (s : Slice) : Except String (ShardDescr × Slice) := do
  let (hd, s) ← readSDHeader s
  let (fees, funds, clr, prfc, colls, packi, s) ←
    (if hd.tag = 11 then do
      let (fees, s) ← cc.r s
      let (funds, s) ← cc.r s
      Except.ok (fees, funds, (⟨0⟩ : CopyleftRewards), (none : Option ProofChain),
        (none : Option ShardCollators), (none : Option MsgPackProcessingInfo), s)
    else if hd.tag = 10 then do
      let (c, s) ← drainRef s
      let (fees, s1) ← cc.r c.toSlice
      let (funds, _) ← cc.r s1
      Except.ok (fees, funds, (⟨0⟩ : CopyleftRewards), (none : Option ProofChain),
        (none : Option ShardCollators), (none : Option MsgPackProcessingInfo), s)
    else if hd.tag = 12 then do
      let (c, s) ← drainRef s
      let (fees, s1) ← cc.r c.toSlice
      let (funds, s1) ← cc.r s1
      let (clr, _) ← cl.r s1
      Except.ok (fees, funds, clr, (none : Option ProofChain),
        (none : Option ShardCollators), (none : Option MsgPackProcessingInfo), s)
    else if hd.tag = 13 then do
      let (c, s) ← drainRef s
      let (fees, s1) ← cc.r c.toSlice
      let (funds, s1) ← cc.r s1
      let (bit, s1) ← readBit s1
      let (clr, s1) ← (if bit then cl.r s1 else Except.ok ((⟨0⟩ : CopyleftRewards), s1))
      let (prfc, _) ← pc.r s1
      Except.ok (fees, funds, clr, some prfc,
        (none : Option ShardCollators), (none : Option MsgPackProcessingInfo), s)
    else do
      let (c, s) ← drainRef s
      let (fees, s1) ← cc.r c.toSlice
      let (funds, s1) ← cc.r s1
      let (prfc, s1) ← readOpt pc.r s1
      let (colls, s1) ← readOpt (readSC vs) s1
      if hd.tag = 9 then do
        let (c2, _) ← drainRef s1
        let (packi, _) ← readOpt (readMPI mid) c2.toSlice
        Except.ok (fees, funds, (⟨0⟩ : CopyleftRewards), prfc, colls, packi, s)
      else
        Except.ok (fees, funds, (⟨0⟩ : CopyleftRewards), prfc, colls,
          (none : Option MsgPackProcessingInfo), s))
  let (meshq, s) ← (if hd.tag = 15 then mesh.r s
    else Except.ok ((⟨0⟩ : MeshOutDescr), s))
  .ok (⟨hd.seq_no, hd.reg_mc_seqno, hd.start_lt, hd.end_lt, hd.root_hash, hd.file_hash,
    hd.before_split, hd.before_merge, hd.want_split, hd.want_merge, hd.nx_cc_updated, 0,
    hd.next_catchain_seqno, hd.next_validator_shard, hd.min_ref_mc_seqno, hd.gen_utime,
    hd.split_merge_at, fees, funds, clr, prfc, colls, meshq, packi⟩, s)

/-- An empty `CopyleftRewards` is the default value. -/
theorem copyleft_empty_eq {x : CopyleftRewards} (h : x.is_empty = true) : x = ⟨0⟩ := by
  rcases x with ⟨n⟩
  simp [CopyleftRewards.is_empty] at h
  simp [h]

/-- An empty `MeshOutDescr` is the default value. -/
theorem mesh_empty_eq {x : MeshOutDescr} (h : x.is_empty = true) : x = ⟨0⟩ := by
  rcases x with ⟨n⟩
  simp [MeshOutDescr.is_empty] at h
  simp [h]

/-- The encoder only emits the seven legal tags. -/
theorem sdTag_mem (v : ShardDescr) : sdTag v ∈ ([10, 11, 12, 13, 14, 15, 9] : List ℕ) := by
  unfold sdTag
  split_ifs <;> simp

/-- C8 (amended): for every `ShardDescr` with `flags = 0`, whose collators
(if present with empty statistics) carry no mempool lists, and whose mesh
queues are empty whenever `pack_info` is present, any successful
serialization deserializes back to exactly the original value, for all
lawful codecs of the six opaque payload types and across every tag variant
the encoder can emit (0xA, 0xC, 0xD, 0xE, 0xF, 0x9). -/
theorem shard_descr_roundtrip_amended
    (cc : Codec CurrencyCollection) (cl : Codec CopyleftRewards) (pc : Codec ProofChain)
    (vs : Codec ValidatorsStat) (mid : Codec MsgPackId) (mesh : Codec MeshOutDescr)
    (hcc : cc.Lawful) (hcl : cl.Lawful) (hpc : pc.Lawful) (hvs : vs.Lawful)
    (hmid : mid.Lawful) (hmesh : mesh.Lawful) (v : ShardDescr)
    (hflags : v.flags = 0)
    (hmem : ∀ sc ∈ v.collators, sc.stat.is_empty = true →
      sc.prev.mempool = [] ∧ (∀ c ∈ sc.prev2, c.mempool = []) ∧ sc.current.mempool = [] ∧
      sc.next.mempool = [] ∧ (∀ c ∈ sc.next2, c.mempool = []))
    (hpm : v.pack_info.isSome = true → v.mesh_msg_queues.is_empty = true) :
    WR (encodeShardDescr cc cl pc vs mid mesh v) (decodeShardDescr cc cl pc vs mid mesh) v := by
  intro b bq h
  unfold encodeShardDescr at h
  rcases hPI : v.pack_info with _ | pi
  · rcases hME : v.mesh_msg_queues.is_empty with _ | _
    · -- mesh nonempty, no pack info: tag 15
      have hstag : sdTag v = 15 := by
        simp [sdTag, hPI, hME]
      rw [hstag, hME] at h
      simp only [Bool.not_false, if_true,
        eq_true (show ((15:ℕ) = 14 ∨ (15:ℕ) = 15 ∨ (15:ℕ) = 9) from by norm_num),
        eq_false (show ((15:ℕ) ≠ 9) from by norm_num), Bool.false_eq_true, if_false] at h
      obtain ⟨bh, hH, h⟩ := bind_ok_inv h
      obtain ⟨hf8, db0, dr0, rfl, hrH⟩ := writeSDHeader_rt 15 v (by norm_num) _ _ hH
      obtain ⟨c1, hc1, h⟩ := bind_ok_inv h
      obtain ⟨dbA, drA, rfl, hrA⟩ := hcc v.fees_collected _ _ hc1
      obtain ⟨c2, hc2, h⟩ := bind_ok_inv h
      obtain ⟨dbB, drB, rfl, hrB⟩ := hcc v.funds_created _ _ hc2
      rcases hCL : v.copyleft_rewards.is_empty with _ | _
      · rw [hCL] at h
        simp only [Bool.not_false, if_true, eq_true (Eq.refl true)] at h
        obtain ⟨a, ha, _⟩ := bind_ok_inv h
        exact Except.noConfusion ha
      · rw [hCL] at h
        simp only [Bool.not_true, Bool.false_eq_true, if_false] at h
        obtain ⟨c5, hc5, h⟩ := bind_ok_inv h
        obtain ⟨c3, hc3, hc5b⟩ := bind_ok_inv hc5
        obtain ⟨dbP, drP, rfl, hrP⟩ :=
          WR_writeOpt v.proof_chain (fun a _ => hpc a) _ _ hc3
        obtain ⟨c4, hc4, hc5c⟩ := bind_ok_inv hc5b
        obtain ⟨dbS, drS, rfl, hrS⟩ :=
          WR_writeOpt v.collators (fun a ha => WR_writeSC vs hvs a (hmem a ha)) _ _ hc4
        obtain rfl := ((Except.ok.injEq _ _).mp hc5c)
        obtain ⟨b2, hb2, h⟩ := bind_ok_inv h
        unfold appendRef at hb2
        obtain rfl := ((Except.ok.injEq _ _).mp hb2).symm
        obtain ⟨dbM, drM, rfl, hrM⟩ := hmesh v.mesh_msg_queues _ _ h
        refine ⟨db0 ++ dbM, (dr0 ++ [Builder.toCell
          ⟨(((Builder.empty.bits ++ dbA) ++ dbB) ++ dbP) ++ dbS,
           (((Builder.empty.refs ++ drA) ++ drB) ++ drP) ++ drS⟩]) ++ drM,
          by simp, fun rb rr => ?_⟩
        unfold decodeShardDescr
        simp only [List.append_assoc]
        rw [hrH, except_bind_ok]
        dsimp only [sdHeaderOf]
        rw [if_neg (by norm_num), if_neg (by norm_num), if_neg (by norm_num),
          if_neg (by norm_num)]
        rw [List.singleton_append, drainRef_append, except_bind_ok]
        dsimp only [Builder.toCell, Cell.toSlice, Builder.empty]
        simp only [List.nil_append, List.append_assoc]
        rw [hrA, except_bind_ok]
        dsimp only
        rw [hrB, except_bind_ok]
        dsimp only
        rw [hrP, except_bind_ok]
        dsimp only
        have hrS0 := hrS [] []
        rw [List.append_nil, List.append_nil] at hrS0
        rw [hrS0, except_bind_ok]
        dsimp only
        rw [if_neg (by norm_num), except_bind_ok]
        dsimp only
        rw [if_pos trivial]
        rw [hrM, except_bind_ok]
        dsimp only
        rw [show (⟨0⟩ : CopyleftRewards) = v.copyleft_rewards from
            (copyleft_empty_eq hCL).symm,
          ← hflags, ← hPI]
    · rcases hCO : v.collators with _ | sc
      · rcases hPC : v.proof_chain with _ | pch
        · rcases hCL : v.copyleft_rewards.is_empty with _ | _
          · -- copyleft nonempty: tag 12
            have hstag : sdTag v = 12 := by
              simp [sdTag, hPI, hME, hCO, hPC, hCL]
            rw [hstag, hME] at h
            simp only [Bool.not_true, Bool.false_eq_true, if_false,
              eq_false (show ¬((12:ℕ) = 14 ∨ (12:ℕ) = 15 ∨ (12:ℕ) = 9) from by norm_num),
              eq_false (show ((12:ℕ) ≠ 13) from by norm_num), if_true,
              eq_true (show ((12:ℕ) = 12) from rfl)] at h
            obtain ⟨bh, hH, h⟩ := bind_ok_inv h
            obtain ⟨hf8, db0, dr0, rfl, hrH⟩ :=
              writeSDHeader_rt 12 v (by norm_num) _ _ hH
            obtain ⟨c1, hc1, h⟩ := bind_ok_inv h
            obtain ⟨dbA, drA, rfl, hrA⟩ := hcc v.fees_collected _ _ hc1
            obtain ⟨c2, hc2, h⟩ := bind_ok_inv h
            obtain ⟨dbB, drB, rfl, hrB⟩ := hcc v.funds_created _ _ hc2
            obtain ⟨c3, hc3, h⟩ := bind_ok_inv h
            obtain ⟨dbC, drC, rfl, hrC⟩ := hcl v.copyleft_rewards _ _ hc3
            unfold appendRef at h
            simp only [except_bind_ok] at h
            obtain rfl := ((Except.ok.injEq _ _).mp h)
            refine ⟨db0, dr0 ++ [Builder.toCell
              ⟨((Builder.empty.bits ++ dbA) ++ dbB) ++ dbC,
               ((Builder.empty.refs ++ drA) ++ drB) ++ drC⟩],
              by simp, fun rb rr => ?_⟩
            unfold decodeShardDescr
            simp only [List.append_assoc]
            rw [hrH, except_bind_ok]
            dsimp only [sdHeaderOf]
            rw [if_neg (by norm_num), if_neg (by norm_num), if_pos rfl]
            rw [List.singleton_append, drainRef_append, except_bind_ok]
            dsimp only [Builder.toCell, Cell.toSlice, Builder.empty]
            simp only [List.nil_append, List.append_assoc]
            rw [hrA, except_bind_ok]
            dsimp only
            rw [hrB, except_bind_ok]
            dsimp only
            have hrC0 := hrC [] []
            rw [List.append_nil, List.append_nil] at hrC0
            rw [hrC0, except_bind_ok]
            dsimp only
            rw [except_bind_ok]
            dsimp only
            rw [if_neg (by norm_num), except_bind_ok]
            dsimp only
            rw [show (⟨0⟩ : MeshOutDescr) = v.mesh_msg_queues from (mesh_empty_eq hME).symm,
              ← hflags, ← hPC, ← hCO, ← hPI]
          · -- everything absent: tag 10
            have hstag : sdTag v = 10 := by
              simp [sdTag, hPI, hME, hCO, hPC, hCL]
            rw [hstag, hME] at h
            simp only [Bool.not_true, Bool.false_eq_true, if_false,
              eq_false (show ¬((10:ℕ) = 14 ∨ (10:ℕ) = 15 ∨ (10:ℕ) = 9) from by norm_num),
              eq_false (show ((10:ℕ) ≠ 13) from by norm_num),
              eq_false (show ((10:ℕ) ≠ 12) from by norm_num)] at h
            obtain ⟨bh, hH, h⟩ := bind_ok_inv h
            obtain ⟨hf8, db0, dr0, rfl, hrH⟩ :=
              writeSDHeader_rt 10 v (by norm_num) _ _ hH
            obtain ⟨c1, hc1, h⟩ := bind_ok_inv h
            obtain ⟨dbA, drA, rfl, hrA⟩ := hcc v.fees_collected _ _ hc1
            obtain ⟨c2, hc2, h⟩ := bind_ok_inv h
            obtain ⟨dbB, drB, rfl, hrB⟩ := hcc v.funds_created _ _ hc2
            simp only [except_bind_ok] at h
            unfold appendRef at h
            simp only [except_bind_ok] at h
            obtain rfl := ((Except.ok.injEq _ _).mp h)
            refine ⟨db0, dr0 ++ [Builder.toCell
              ⟨(Builder.empty.bits ++ dbA) ++ dbB, (Builder.empty.refs ++ drA) ++ drB⟩],
              by simp, fun rb rr => ?_⟩
            unfold decodeShardDescr
            simp only [List.append_assoc]
            rw [hrH, except_bind_ok]
            dsimp only [sdHeaderOf]
            rw [if_neg (by norm_num), if_pos rfl]
            rw [List.singleton_append, drainRef_append, except_bind_ok]
            dsimp only [Builder.toCell, Cell.toSlice, Builder.empty]
            simp only [List.nil_append, List.append_assoc]
            rw [hrA, except_bind_ok]
            dsimp only
            have hrB0 := hrB [] []
            rw [List.append_nil, List.append_nil] at hrB0
            rw [hrB0, except_bind_ok]
            dsimp only
            rw [except_bind_ok]
            dsimp only
            rw [if_neg (by norm_num), except_bind_ok]
            dsimp only
            rw [show (⟨0⟩ : CopyleftRewards) = v.copyleft_rewards from
                (copyleft_empty_eq hCL).symm,
              show (⟨0⟩ : MeshOutDescr) = v.mesh_msg_queues from (mesh_empty_eq hME).symm,
              ← hflags, ← hPC, ← hCO, ← hPI]
        · -- proof chain present: tag 13
          have hstag : sdTag v = 13 := by
            simp [sdTag, hPI, hME, hCO, hPC]
          rw [hstag, hME, hPC] at h
          simp only [Bool.not_true, Bool.false_eq_true, if_false,
            eq_false (show ¬((13:ℕ) = 14 ∨ (13:ℕ) = 15 ∨ (13:ℕ) = 9) from by norm_num),
            if_true, eq_true (show ((13:ℕ) = 13) from rfl)] at h
          obtain ⟨bh, hH, h⟩ := bind_ok_inv h
          obtain ⟨hf8, db0, dr0, rfl, hrH⟩ :=
            writeSDHeader_rt 13 v (by norm_num) _ _ hH
          obtain ⟨c1, hc1, h⟩ := bind_ok_inv h
          obtain ⟨dbA, drA, rfl, hrA⟩ := hcc v.fees_collected _ _ hc1
          obtain ⟨c2, hc2, h⟩ := bind_ok_inv h
          obtain ⟨dbB, drB, rfl, hrB⟩ := hcc v.funds_created _ _ hc2
          rcases hCL : v.copyleft_rewards.is_empty with _ | _
          · -- copyleft nonempty: presence bit set, rewards written
            rw [hCL] at h
            simp only [Bool.not_false, if_true, eq_true (Eq.refl true)] at h
            obtain ⟨c3, hc3, h⟩ := bind_ok_inv h
            unfold writeBool at hc3
            simp only [except_bind_ok] at hc3
            obtain ⟨c4, hc4, hc3⟩ := bind_ok_inv hc3
            obtain ⟨dbC, drC, rfl, hrC⟩ := hcl v.copyleft_rewards _ _ hc4
            obtain ⟨dbD, drD, rfl, hrD⟩ := hpc pch _ _ hc3
            unfold appendRef at h
            simp only [except_bind_ok] at h
            obtain rfl := ((Except.ok.injEq _ _).mp h)
            refine ⟨db0, dr0 ++ [Builder.toCell
              ⟨(((((Builder.empty.bits ++ dbA) ++ dbB) ++ [true]) ++ dbC) ++ dbD),
               ((((Builder.empty.refs ++ drA) ++ drB) ++ drC) ++ drD)⟩],
              by simp, fun rb rr => ?_⟩
            unfold decodeShardDescr
            simp only [List.append_assoc]
            rw [hrH, except_bind_ok]
            dsimp only [sdHeaderOf]
            rw [if_neg (by norm_num), if_neg (by norm_num), if_neg (by norm_num),
              if_pos rfl]
            rw [List.singleton_append, drainRef_append, except_bind_ok]
            dsimp only [Builder.toCell, Cell.toSlice, Builder.empty]
            simp only [List.nil_append, List.append_assoc, List.cons_append]
            rw [hrA, except_bind_ok]
            dsimp only
            rw [hrB, except_bind_ok]
            dsimp only
            rw [readBit_append, except_bind_ok]
            dsimp only
            rw [if_pos rfl]
            rw [hrC, except_bind_ok]
            dsimp only
            have hrD0 := hrD [] []
            rw [List.append_nil, List.append_nil] at hrD0
            rw [hrD0, except_bind_ok]
            dsimp only
            rw [except_bind_ok]
            dsimp only
            rw [if_neg (by norm_num), except_bind_ok]
            dsimp only
            rw [show (⟨0⟩ : MeshOutDescr) = v.mesh_msg_queues from (mesh_empty_eq hME).symm,
              ← hflags, ← hPC, ← hCO, ← hPI]
          · -- copyleft empty: presence bit clear
            rw [hCL] at h
            simp only [Bool.not_true, Bool.false_eq_true, if_false] at h
            obtain ⟨c3, hc3, h⟩ := bind_ok_inv h
            unfold writeBool at hc3
            simp only [except_bind_ok] at hc3
            obtain ⟨dbD, drD, rfl, hrD⟩ := hpc pch _ _ hc3
            unfold appendRef at h
            simp only [except_bind_ok] at h
            obtain rfl := ((Except.ok.injEq _ _).mp h)
            refine ⟨db0, dr0 ++ [Builder.toCell
              ⟨((((Builder.empty.bits ++ dbA) ++ dbB) ++ [false]) ++ dbD),
               (((Builder.empty.refs ++ drA) ++ drB) ++ drD)⟩],
              by simp, fun rb rr => ?_⟩
            unfold decodeShardDescr
            simp only [List.append_assoc]
            rw [hrH, except_bind_ok]
            dsimp only [sdHeaderOf]
            rw [if_neg (by norm_num), if_neg (by norm_num), if_neg (by norm_num),
              if_pos rfl]
            rw [List.singleton_append, drainRef_append, except_bind_ok]
            dsimp only [Builder.toCell, Cell.toSlice, Builder.empty]
            simp only [List.nil_append, List.append_assoc, List.cons_append]
            rw [hrA, except_bind_ok]
            dsimp only
            rw [hrB, except_bind_ok]
            dsimp only
            rw [readBit_append, except_bind_ok]
            dsimp only
            rw [if_neg (by simp), except_bind_ok]
            dsimp only
            have hrD0 := hrD [] []
            rw [List.append_nil, List.append_nil] at hrD0
            rw [hrD0, except_bind_ok]
            dsimp only
            rw [except_bind_ok]
            dsimp only
            rw [if_neg (by norm_num), except_bind_ok]
            dsimp only
            rw [show (⟨0⟩ : CopyleftRewards) = v.copyleft_rewards from
                (copyleft_empty_eq hCL).symm,
              show (⟨0⟩ : MeshOutDescr) = v.mesh_msg_queues from (mesh_empty_eq hME).symm,
              ← hflags, ← hPC, ← hCO, ← hPI]
      · -- collators present: tag 14
        have hstag : sdTag v = 14 := by
          simp [sdTag, hPI, hME, hCO]
        rw [hstag, hME] at h
        simp only [Bool.not_true, Bool.false_eq_true, if_false, if_true,
          eq_true (show ((14:ℕ) = 14 ∨ (14:ℕ) = 15 ∨ (14:ℕ) = 9) from by norm_num),
          eq_false (show ((14:ℕ) ≠ 9) from by norm_num)] at h
        obtain ⟨bh, hH, h⟩ := bind_ok_inv h
        obtain ⟨hf8, db0, dr0, rfl, hrH⟩ := writeSDHeader_rt 14 v (by norm_num) _ _ hH
        obtain ⟨c1, hc1, h⟩ := bind_ok_inv h
        obtain ⟨dbA, drA, rfl, hrA⟩ := hcc v.fees_collected _ _ hc1
        obtain ⟨c2, hc2, h⟩ := bind_ok_inv h
        obtain ⟨dbB, drB, rfl, hrB⟩ := hcc v.funds_created _ _ hc2
        rcases hCL : v.copyleft_rewards.is_empty with _ | _
        · rw [hCL] at h
          simp only [Bool.not_false, if_true, eq_true (Eq.refl true)] at h
          obtain ⟨a, ha, _⟩ := bind_ok_inv h
          exact Except.noConfusion ha
        · rw [hCL] at h
          simp only [Bool.not_true, Bool.false_eq_true, if_false] at h
          obtain ⟨c5, hc5, h⟩ := bind_ok_inv h
          obtain ⟨c3, hc3, hc5b⟩ := bind_ok_inv hc5
          obtain ⟨dbP, drP, rfl, hrP⟩ :=
            WR_writeOpt v.proof_chain (fun a _ => hpc a) _ _ hc3
          obtain ⟨c4, hc4, hc5c⟩ := bind_ok_inv hc5b
          obtain ⟨dbS, drS, rfl, hrS⟩ :=
            WR_writeOpt v.collators (fun a ha => WR_writeSC vs hvs a (hmem a ha)) _ _ hc4
          obtain rfl := ((Except.ok.injEq _ _).mp hc5c)
          unfold appendRef at h
          simp only [except_bind_ok] at h
          obtain rfl := ((Except.ok.injEq _ _).mp h)
          refine ⟨db0, dr0 ++ [Builder.toCell
            ⟨(((Builder.empty.bits ++ dbA) ++ dbB) ++ dbP) ++ dbS,
             (((Builder.empty.refs ++ drA) ++ drB) ++ drP) ++ drS⟩],
            by simp, fun rb rr => ?_⟩
          unfold decodeShardDescr
          simp only [List.append_assoc]
          rw [hrH, except_bind_ok]
          dsimp only [sdHeaderOf]
          rw [if_neg (by norm_num), if_neg (by norm_num), if_neg (by norm_num),
            if_neg (by norm_num)]
          rw [List.singleton_append, drainRef_append, except_bind_ok]
          dsimp only [Builder.toCell, Cell.toSlice, Builder.empty]
          simp only [List.nil_append, List.append_assoc]
          rw [hrA, except_bind_ok]
          dsimp only
          rw [hrB, except_bind_ok]
          dsimp only
          rw [hrP, except_bind_ok]
          dsimp only
          have hrS0 := hrS [] []
          rw [List.append_nil, List.append_nil] at hrS0
          rw [hrS0, except_bind_ok]
          dsimp only
          rw [if_neg (by norm_num), except_bind_ok]
          dsimp only
          rw [if_neg (by norm_num), except_bind_ok]
          dsimp only
          rw [show (⟨0⟩ : CopyleftRewards) = v.copyleft_rewards from
              (copyleft_empty_eq hCL).symm,
            show (⟨0⟩ : MeshOutDescr) = v.mesh_msg_queues from (mesh_empty_eq hME).symm,
            ← hflags, ← hPI]
  · -- pack info present: tag 9
    have hME : v.mesh_msg_queues.is_empty = true := hpm (by rw [hPI]; rfl)
    have hstag : sdTag v = 9 := by
      simp [sdTag, hPI]
    rw [hstag, hME] at h
    simp only [Bool.not_true, Bool.false_eq_true, if_false, if_true,
      eq_true (show ((9:ℕ) = 14 ∨ (9:ℕ) = 15 ∨ (9:ℕ) = 9) from by norm_num),
      eq_true (show ((9:ℕ) = 9) from rfl)] at h
    obtain ⟨bh, hH, h⟩ := bind_ok_inv h
    obtain ⟨hf8, db0, dr0, rfl, hrH⟩ := writeSDHeader_rt 9 v (by norm_num) _ _ hH
    obtain ⟨c1, hc1, h⟩ := bind_ok_inv h
    obtain ⟨dbA, drA, rfl, hrA⟩ := hcc v.fees_collected _ _ hc1
    obtain ⟨c2, hc2, h⟩ := bind_ok_inv h
    obtain ⟨dbB, drB, rfl, hrB⟩ := hcc v.funds_created _ _ hc2
    rcases hCL : v.copyleft_rewards.is_empty with _ | _
    · rw [hCL] at h
      simp only [Bool.not_false, if_true, eq_true (Eq.refl true)] at h
      obtain ⟨a, ha, _⟩ := bind_ok_inv h
      exact Except.noConfusion ha
    · rw [hCL] at h
      simp only [Bool.not_true, Bool.false_eq_true, if_false] at h
      obtain ⟨c5, hc5, h⟩ := bind_ok_inv h
      obtain ⟨c3, hc3, hc5b⟩ := bind_ok_inv hc5
      obtain ⟨dbP, drP, rfl, hrP⟩ :=
        WR_writeOpt v.proof_chain (fun a _ => hpc a) _ _ hc3
      obtain ⟨c4, hc4, hc5c⟩ := bind_ok_inv hc5b
      obtain ⟨dbS, drS, rfl, hrS⟩ :=
        WR_writeOpt v.collators (fun a ha => WR_writeSC vs hvs a (hmem a ha)) _ _ hc4
      obtain ⟨c6, hc6, hc5d⟩ := bind_ok_inv hc5c
      obtain ⟨db2, dr2, rfl, hr2⟩ :=
        WR_writeOpt v.pack_info (fun a _ => WR_writeMPI mid hmid a) _ _ hc6
      unfold appendRef at hc5d
      obtain rfl := ((Except.ok.injEq _ _).mp hc5d)
      unfold appendRef at h
      simp only [except_bind_ok] at h
      obtain rfl := ((Except.ok.injEq _ _).mp h)
      refine ⟨db0, dr0 ++ [Builder.toCell
        ⟨(((Builder.empty.bits ++ dbA) ++ dbB) ++ dbP) ++ dbS,
         ((((Builder.empty.refs ++ drA) ++ drB) ++ drP) ++ drS) ++
           [Builder.toCell ⟨Builder.empty.bits ++ db2, Builder.empty.refs ++ dr2⟩]⟩],
        by simp, fun rb rr => ?_⟩
      unfold decodeShardDescr
      simp only [List.append_assoc]
      rw [hrH, except_bind_ok]
      dsimp only [sdHeaderOf]
      rw [if_neg (by norm_num), if_neg (by norm_num), if_neg (by norm_num),
        if_neg (by norm_num)]
      rw [List.singleton_append, drainRef_append, except_bind_ok]
      dsimp only [Builder.toCell, Cell.toSlice, Builder.empty]
      simp only [List.nil_append, List.append_assoc]
      rw [hrA, except_bind_ok]
      dsimp only
      rw [hrB, except_bind_ok]
      dsimp only
      rw [hrP, except_bind_ok]
      dsimp only
      have hrS0 := hrS [] [Cell.mk db2 dr2]
      rw [List.append_nil] at hrS0
      rw [hrS0, except_bind_ok]
      dsimp only
      rw [if_pos trivial]
      rw [drainRef_append, except_bind_ok]
      dsimp only [Builder.toCell, Cell.toSlice]
      have hr20 := hr2 [] []
      rw [List.append_nil, List.append_nil] at hr20
      rw [hr20, except_bind_ok]
      dsimp only
      rw [except_bind_ok]
      dsimp only
      rw [if_neg (by norm_num), except_bind_ok]
      dsimp only
      rw [show (⟨0⟩ : CopyleftRewards) = v.copyleft_rewards from
          (copyleft_empty_eq hCL).symm,
        show (⟨0⟩ : MeshOutDescr) = v.mesh_msg_queues from (mesh_empty_eq hME).symm,
        ← hflags]

end CompoundCodecs

/-- A concrete lawful codec for the opaque one-field value types: 32 bits of
the carried value. -/
def valCodec {α : Type} (mk : ℕ → α) (un : α → ℕ) : Codec α :=
  ⟨fun v b => writeUInt 32 (un v) b,
   fun s => (readUInt 32 s).map (fun p => (mk p.1, p.2))⟩

theorem valCodec_lawful {α : Type} (mk : ℕ → α) (un : α → ℕ)
    (hinv : ∀ v, mk (un v) = v) : (valCodec mk un).Lawful := by
  intro v b bq h
  dsimp only [valCodec] at h
  obtain ⟨hn, rfl⟩ := writeUInt_inv h
  refine ⟨natToBits 32 (un v), [], by simp, fun rb rr => ?_⟩
  dsimp only [valCodec]
  rw [readUInt_append 32 (un v) hn]
  simp [Except.map, hinv v]

def ccCodec : Codec CurrencyCollection := valCodec CurrencyCollection.mk CurrencyCollection.val

def clCodec : Codec CopyleftRewards := valCodec CopyleftRewards.mk CopyleftRewards.val

def pcCodec : Codec ProofChain := valCodec ProofChain.mk ProofChain.val

def vsCodec : Codec ValidatorsStat := valCodec ValidatorsStat.mk ValidatorsStat.val

def midCodec : Codec MsgPackId := valCodec MsgPackId.mk MsgPackId.val

def meshCodec : Codec MeshOutDescr := valCodec MeshOutDescr.mk MeshOutDescr.val

theorem ccCodec_lawful : ccCodec.Lawful := valCodec_lawful _ _ (fun _ => rfl)
theorem clCodec_lawful : clCodec.Lawful := valCodec_lawful _ _ (fun _ => rfl)
theorem pcCodec_lawful : pcCodec.Lawful := valCodec_lawful _ _ (fun _ => rfl)
theorem vsCodec_lawful : vsCodec.Lawful := valCodec_lawful _ _ (fun _ => rfl)
theorem midCodec_lawful : midCodec.Lawful := valCodec_lawful _ _ (fun _ => rfl)
theorem meshCodec_lawful : meshCodec.Lawful := valCodec_lawful _ _ (fun _ => rfl)

/-- A `ShardDescr` whose raw `flags` field is 8: `flags & 7 = 0`, so
`write_to` accepts it, but `read_from` never restores the field. -/
def sdFlags8 : ShardDescr := { ShardDescr.zero with flags := 8 }

def sdFlags8Enc : Builder :=
  (encodeShardDescr ccCodec clCodec pcCodec vsCodec midCodec meshCodec sdFlags8
    Builder.empty).toOption.getD Builder.empty

/-- C8 counterexample: `sdFlags8` serializes successfully, yet the
deserialized value differs from the original — the claimed unconditional
round trip fails because the raw `flags` field (master.rs 1815) is written
only through its five named bits and is never read back. -/
theorem shard_descr_roundtrip_cex :
    encodeShardDescr ccCodec clCodec pcCodec vsCodec midCodec meshCodec sdFlags8
      Builder.empty = .ok sdFlags8Enc ∧
    (decodeShardDescr ccCodec clCodec pcCodec vsCodec midCodec meshCodec
      ⟨sdFlags8Enc.bits, sdFlags8Enc.refs⟩).map Prod.fst ≠ .ok sdFlags8 := by
  constructor
  · rfl
  · decide

/-- A tag-0xE sample: proof chain and collators present, nonempty validator
statistics (so mempool lists are on the wire), a pending split, and nonzero
fees. -/
def sdSample : ShardDescr :=
  { ShardDescr.zero with
    seq_no := 3, gen_utime := 17, before_split := true, want_merge := true,
    split_merge_at := .Split 100 200,
    fees_collected := ⟨21⟩, funds_created := ⟨22⟩,
    proof_chain := some ⟨5⟩,
    collators := some ⟨⟨1, [2], 3, 4⟩, none, ⟨5, [], 6, 7⟩, ⟨8, [6], 9, 10⟩, none, 11, ⟨12⟩⟩ }

def sdSampleEnc : Builder :=
  (encodeShardDescr ccCodec clCodec pcCodec vsCodec midCodec meshCodec sdSample
    Builder.empty).toOption.getD Builder.empty

/-- Witness for C8: the amended theorem applied to `sdSample` yields the
concrete round trip through the encoded builder. -/
theorem shard_descr_roundtrip_amended_witness :
    encodeShardDescr ccCodec clCodec pcCodec vsCodec midCodec meshCodec sdSample
      Builder.empty = .ok sdSampleEnc ∧
    decodeShardDescr ccCodec clCodec pcCodec vsCodec midCodec meshCodec
      ⟨sdSampleEnc.bits, sdSampleEnc.refs⟩ = .ok (sdSample, ⟨[], []⟩) := by
  have henc : encodeShardDescr ccCodec clCodec pcCodec vsCodec midCodec meshCodec sdSample
      Builder.empty = .ok sdSampleEnc := rfl
  obtain ⟨db, dr, hshape, hread⟩ :=
    shard_descr_roundtrip_amended ccCodec clCodec pcCodec vsCodec midCodec meshCodec
      ccCodec_lawful clCodec_lawful pcCodec_lawful vsCodec_lawful midCodec_lawful
      meshCodec_lawful sdSample rfl
      (by intro sc hsc hst
          simp only [sdSample, Option.mem_def, Option.some.injEq] at hsc
          subst hsc
          exact absurd hst (by decide))
      (by intro hps; exact absurd hps (by decide))
      Builder.empty sdSampleEnc henc
  have hb : sdSampleEnc.bits = db := by rw [hshape]; simp [Builder.empty]
  have hr : sdSampleEnc.refs = dr := by rw [hshape]; simp [Builder.empty]
  refine ⟨henc, ?_⟩
  rw [hb, hr]
  have h0 := hread [] []
  rw [List.append_nil, List.append_nil] at h0
  exact h0

end VenomBlock
